import Mathlib

/-!
Verification of the schedule/event aggregation and timing engine of the
wall-e school-dashboard repository.

The definitions below are shallow embeddings of the repository's source
functions:

* the period-status engine `getCurrentPeriodStatus`
  (src/wails-migration/frontend/src/dashboard/schedule.ts and its
  duplicate in src/unnamed/part_003), together with `parseTime` and
  `timeToMinutes` (src/unnamed/part_013);
* the alarm scheduler `getAlarmKey`, `shouldPlayAlarm`,
  `checkAndPlayAlarms`, `resetAlarmsIfNewDay`
  (src/wails-migration/frontend/src/dashboard/audio.ts);
* the CSV tokenizer `parseCSV`, the timetable builder
  `csvToTimetableData`, the date normalizer `parseDateToYYYYMMDD`,
  the study-plan builder `csvToStudyPlan` / `parseStudyPlanBlock` /
  `extractDateRange` (src/unnamed/part_008, Go; the TypeScript twin in
  src/unnamed/part_016 has the same logic for the parts used here);
* the event merger `mergeEvents` (src/unnamed/part_005, Go).

JavaScript number semantics matter in the schedule/alarm code: period
times are parsed with `split(":").map(Number)`, so a malformed time
yields NaN, and every comparison against NaN is false.  We model a
JS numeric value as `Option Int` with `none` playing the role of NaN,
and comparisons that are false on `none`.  Wall-clock readings
(`getHours()` etc.) are genuine small naturals and are modelled as `Nat`.

Sound playback (`playPresetAlarm` / `playCustomAlarm`) is I/O and is
elided from the alarm model; the returned `AlarmEvent` option and the
firing-record set are modelled exactly.
-/

namespace WallE

/-! ## String helpers

The Lean core versions of `splitOn`, `trim`, `toNat!` are implemented by
well-founded recursion over byte positions and do not reduce inside the
kernel, so we use structurally recursive character-list equivalents
(`splitChar` = JS `split(c)` / Go `strings.Split` for a one-character
separator, `strTrim` = JS `trim()` / Go `strings.TrimSpace` on the
whitespace that occurs in this data). -/

def isWsp (c : Char) : Bool :=
  c = ' ' ∨ c = '\t' ∨ c = '\n' ∨ c = '\r' ∨ c = '\x0c'

def trimChars (cs : List Char) : List Char :=
  ((cs.dropWhile isWsp).reverse.dropWhile isWsp).reverse

def strTrim (s : String) : String := ⟨trimChars s.data⟩

def splitCharAux (sep : Char) : List Char → List Char → List String
  | [], cur => [⟨cur⟩]
  | c :: cs, cur =>
    if c = sep then ⟨cur⟩ :: splitCharAux sep cs []
    else splitCharAux sep cs (cur ++ [c])

/-- JS `s.split(sep)` / Go `strings.Split(s, sep)` for a one-character
separator: always at least one part, empty parts preserved. -/
def splitChar (sep : Char) (s : String) : List String :=
  splitCharAux sep s.data []

def digitsToNat (ds : List Char) : Nat :=
  ds.foldl (fun a c => 10 * a + (c.toNat - '0'.toNat)) 0

/-- Lexicographic strict order on character lists by code point.  On the
strings compared by this code (UTF-8 in Go, UTF-16 code units in JS for
these all-BMP strings) this coincides with the source orderings, and the
core `String` order does not reduce inside the kernel. -/
def charsLt : List Char → List Char → Bool
  | [], [] => false
  | [], _ :: _ => true
  | _ :: _, [] => false
  | a :: as, b :: bs =>
    if a.toNat < b.toNat then true
    else if b.toNat < a.toNat then false
    else charsLt as bs

/-- Go `a < b` / JS `a < b` on strings. -/
def strLt (a b : String) : Bool := charsLt a.data b.data

/-- Go `a > b` on strings. -/
def strGt (a b : String) : Bool := charsLt b.data a.data

/-- Go `a <= b` on strings. -/
def strLe (a b : String) : Bool := !(charsLt b.data a.data)

/-! ## JS number semantics (`none` = NaN) -/

def jsAdd : Option Int → Option Int → Option Int
  | some a, some b => some (a + b)
  | _, _ => none

def jsSub : Option Int → Option Int → Option Int
  | some a, some b => some (a - b)
  | _, _ => none

def jsMul : Option Int → Option Int → Option Int
  | some a, some b => some (a * b)
  | _, _ => none

/-- `a < b` in JS: false when either side is NaN. -/
def jsLtB : Option Int → Option Int → Bool
  | some a, some b => decide (a < b)
  | _, _ => false

/-- `a <= b` in JS: false when either side is NaN. -/
def jsLeB : Option Int → Option Int → Bool
  | some a, some b => decide (a ≤ b)
  | _, _ => false

/-- `a >= b` in JS: false when either side is NaN. -/
def jsGeB (a b : Option Int) : Bool := jsLeB b a

/-- `a === b` in JS for numbers: false when either side is NaN. -/
def jsEqB : Option Int → Option Int → Bool
  | some a, some b => decide (a = b)
  | _, _ => false

/-- Render a JS number as `${n}` does (`"NaN"` for NaN). -/
def jsNumStr : Option Int → String
  | some n => toString n
  | none => "NaN"

/-- `Number(str)` for the integral strings that occur as time components:
the empty (or all-whitespace) string is 0, an optionally signed digit
string is its value, anything else is NaN.  (Fractional/exponent forms
never occur in `"HH:MM"` components and are not modelled.) -/
def jsNumber (s : String) : Option Int :=
  match trimChars s.data with
  | [] => some 0
  | '+' :: ds => if ds ≠ [] ∧ ds.all Char.isDigit then some (digitsToNat ds) else none
  | '-' :: ds => if ds ≠ [] ∧ ds.all Char.isDigit then some (-(digitsToNat ds : Int)) else none
  | ds => if ds.all Char.isDigit then some (digitsToNat ds) else none

/-! ## `parseTime` / `timeToMinutes` (src/unnamed/part_013)

```ts
export function parseTime(timeStr: string): { hours: number; minutes: number } {
  const [h, m] = timeStr.split(":").map(Number);
  return { hours: h, minutes: m };
}
export function timeToMinutes(hours: number, minutes: number): number {
  return hours * 60 + minutes;
}
```
`split` always yields at least one part; a missing second part is
`undefined`, and `Number(undefined)` is NaN. -/

def parseTime (timeStr : String) : Option Int × Option Int :=
  let parts := splitChar ':' timeStr
  (jsNumber (parts.headD ""),
   match parts.get? 1 with
   | some m => jsNumber m
   | none => none)

def timeToMinutes (hours minutes : Option Int) : Option Int :=
  jsAdd (jsMul hours (some 60)) minutes

/-- Minutes-since-midnight of a `"HH:MM"` string, via `parseTime` and
`timeToMinutes` exactly as every call site combines them. -/
def timeStrMinutes (s : String) : Option Int :=
  timeToMinutes (parseTime s).1 (parseTime s).2

/-! ## Data model -/

/-- `PeriodTime` (Go) / `PeriodTime` (TS): one class period. The Lean
field `endT` renders the source field `end`, which is a Lean keyword. -/
structure PeriodTime where
  period : Int
  start : String
  endT : String
deriving DecidableEq, Repr

inductive StatusType where
  | beforeSchool | inClass | breakT | lunch | afterSchool | prep
deriving DecidableEq, Repr

/-- `PeriodStatus` from schedule.ts.  `minutesLeft` is an optional field
whose value is itself a JS number, hence `Option (Option Int)`
(`none` = field absent, `some none` = present but NaN). -/
structure PeriodStatus where
  type : StatusType
  currentPeriod : Option Int
  nextPeriod : Option Int
  message : String
  minutesLeft : Option (Option Int)
deriving DecidableEq, Repr

/-- The wall-clock readings `getCurrentPeriodStatus` makes on its `now`
argument: `getDay()`, `getHours()`, `getMinutes()`. -/
structure SimTime where
  dayOfWeek : Nat
  hours : Nat
  minutes : Nat
deriving DecidableEq, Repr

/-! ## Period-status engine (schedule.ts / part_003) -/

/-- The final catch-all `return { type: "break", ... }` of
`getCurrentPeriodStatus`. -/
def fallbackStatus : PeriodStatus :=
  ⟨.breakT, none, none, "쉬는시간", none⟩

/-- The `for (let i = 0; ...)` scan of `getCurrentPeriodStatus`:
in-class test for period `i`, then the gap test against period `i+1`
(only when `i+1 < periods.length`), else continue; `none` when the loop
falls through. -/
def scanPeriods (cm : Option Int) : List PeriodTime → Option PeriodStatus
  | [] => none
  | p :: rest =>
    let startMin := timeStrMinutes p.start
    let endMin := timeStrMinutes p.endT
    if jsGeB cm startMin ∧ jsLtB cm endMin then
      let remaining := jsSub endMin cm
      some ⟨.inClass, some p.period,
        (match rest with | [] => none | q :: _ => some q.period),
        toString p.period ++ "교시 수업 중 (" ++ jsNumStr remaining ++ "분 남음)",
        some remaining⟩
    else
      match rest with
      | [] => none
      | q :: _ =>
        let nextStartMin := timeStrMinutes q.start
        if jsGeB cm endMin ∧ jsLtB cm nextStartMin then
          let diff := jsSub nextStartMin cm
          if jsGeB (jsSub nextStartMin endMin) (some 30) then
            some ⟨.lunch, none, some q.period,
              "점심시간 (" ++ toString q.period ++ "교시까지 " ++ jsNumStr diff ++ "분)",
              some diff⟩
          else
            some ⟨.breakT, none, some q.period,
              "쉬는시간 (" ++ toString q.period ++ "교시까지 " ++ jsNumStr diff ++ "분)",
              some diff⟩
        else scanPeriods cm rest

/-- `getCurrentPeriodStatus(periods, now)` from schedule.ts (identical in
src/unnamed/part_003). -/
def getCurrentPeriodStatus (periods : List PeriodTime) (now : SimTime) : PeriodStatus :=
  let currentMinutes : Option Int := some ((now.hours : Int) * 60 + now.minutes)
  if now.dayOfWeek = 0 ∨ now.dayOfWeek = 6 then
    ⟨.afterSchool, none, none, "주말", none⟩
  else
    match periods with
    | [] => ⟨.beforeSchool, none, none, "시간표 없음", none⟩
    | p0 :: rest =>
      let firstStartMin := timeStrMinutes p0.start
      let lastEndMin := timeStrMinutes ((p0 :: rest).getLast (by simp)).endT
      if jsLtB currentMinutes (jsSub firstStartMin (some 10)) then
        let diff := jsSub firstStartMin currentMinutes
        ⟨.beforeSchool, none, some 1,
          "등교 전 (1교시까지 " ++ jsNumStr diff ++ "분)", some diff⟩
      else if jsLtB currentMinutes firstStartMin then
        let diff := jsSub firstStartMin currentMinutes
        ⟨.prep, none, some 1,
          "준비시간 (" ++ jsNumStr diff ++ "분 전)", some diff⟩
      else if jsGeB currentMinutes lastEndMin then
        ⟨.afterSchool, none, none, "하교 시간", none⟩
      else
        match scanPeriods currentMinutes (p0 :: rest) with
        | some st => st
        | none => fallbackStatus

/-! ## Alarm scheduler (src/wails-migration/frontend/src/dashboard/audio.ts)

The mutable module-level `playedAlarms: Set<string>` is modelled as an
explicitly threaded `List String`; `new Date()` readings are modelled by
a `Wall` record of the fields the code reads (`getFullYear`, `getMonth`,
`getDate`, `getHours`, `getMinutes`, `getSeconds`).  Tone/audio playback
is I/O and is elided; the returned `AlarmEvent | null` is kept. -/

structure Wall where
  year : Nat
  month : Nat
  day : Nat
  hours : Nat
  minutes : Nat
  seconds : Nat
deriving DecidableEq, Repr

inductive AlarmType where
  | warning | start | ending
deriving DecidableEq, Repr

/-- The string `"warning" | "start" | "end"` of the TS `AlarmType`. -/
def alarmTypeStr : AlarmType → String
  | .warning => "warning"
  | .start => "start"
  | .ending => "end"

structure AlarmEvent where
  period : Int
  type : AlarmType
deriving DecidableEq, Repr

/-- `getAlarmKey(period, type)`:
`` `${now.getFullYear()}-${now.getMonth()}-${now.getDate()}-${period}-${type}` ``. -/
def getAlarmKey (now : Wall) (period : Int) (t : AlarmType) : String :=
  toString now.year ++ "-" ++ toString now.month ++ "-" ++ toString now.day
    ++ "-" ++ toString period ++ "-" ++ alarmTypeStr t

/-- `shouldPlayAlarm(key)`: returns false if the key was already played,
else records it and returns true.  The pair carries the updated set. -/
def shouldPlayAlarm (key : String) (played : List String) : Bool × List String :=
  if key ∈ played then (false, played) else (true, key :: played)

/-- One `if (currentMinutes === ...) { ... }` block of the period loop
of `checkAndPlayAlarms`: when the trigger condition holds and
`shouldPlayAlarm` accepts the key, fire and return; otherwise fall
through to the rest of the loop (`next`).  A non-firing check leaves the
played set untouched, so `next` can be evaluated against the same set. -/
def fireStep (cond : Bool) (key : String) (ev : AlarmEvent)
    (played : List String) (next : Option AlarmEvent × List String) :
    Option AlarmEvent × List String :=
  if cond then
    let r := shouldPlayAlarm key played
    if r.1 then (some ev, r.2) else next
  else next

/-- The `for (const p of periods)` loop of `checkAndPlayAlarms`:
warning at `start-1`, start at `start`, end at `end`, each guarded by
`shouldPlayAlarm` and returning on the first fire. -/
def alarmScan (cm : Option Int) (now : Wall) :
    List PeriodTime → List String → Option AlarmEvent × List String
  | [], played => (none, played)
  | p :: rest, played =>
    let startMin := timeStrMinutes p.start
    let endMin := timeStrMinutes p.endT
    fireStep (jsEqB cm (jsSub startMin (some 1)))
      (getAlarmKey now p.period .warning) ⟨p.period, .warning⟩ played
      (fireStep (jsEqB cm startMin)
        (getAlarmKey now p.period .start) ⟨p.period, .start⟩ played
        (fireStep (jsEqB cm endMin)
          (getAlarmKey now p.period .ending) ⟨p.period, .ending⟩ played
          (alarmScan cm now rest played)))

/-- `checkAndPlayAlarms(periods, enabled, ...)`: no-op when disabled or
when `now.getSeconds() > 2`, else the per-period trigger scan.  The
sound-choice arguments only select which sound plays and are elided with
the playback itself. -/
def checkAndPlayAlarms (periods : List PeriodTime) (enabled : Bool) (now : Wall)
    (played : List String) : Option AlarmEvent × List String :=
  if !enabled then (none, played)
  else
    let currentMinutes : Option Int := some ((now.hours : Int) * 60 + now.minutes)
    if now.seconds > 2 then (none, played)
    else alarmScan currentMinutes now periods played

/-- `resetAlarmsIfNewDay()`: clears the firing-record set when the wall
clock reads 00:0x. -/
def resetAlarmsIfNewDay (now : Wall) (played : List String) : List String :=
  if now.hours = 0 ∧ now.minutes = 0 then [] else played

/-- A run of 1-second ticks: `checkAndPlayAlarms` at each tick, threading
the firing-record set and collecting the fired events. -/
def runAlarms (periods : List PeriodTime) (enabled : Bool) :
    List Wall → List String → List AlarmEvent × List String
  | [], s => ([], s)
  | t :: ts, s =>
    let r := checkAndPlayAlarms periods enabled t s
    let rec' := runAlarms periods enabled ts r.2
    (r.1.toList ++ rec'.1, rec'.2)

/-- A run of ticks through the update loop of the shell
(src/unnamed/part_002 `startUpdateLoop`): each tick calls
`checkAndPlayAlarms` and then `resetAlarmsIfNewDay`. -/
def runAlarmsWithReset (periods : List PeriodTime) (enabled : Bool) :
    List Wall → List String → List AlarmEvent × List String
  | [], s => ([], s)
  | t :: ts, s =>
    let r := checkAndPlayAlarms periods enabled t s
    let s2 := resetAlarmsIfNewDay t r.2
    let rec' := runAlarmsWithReset periods enabled ts s2
    (r.1.toList ++ rec'.1, rec'.2)

/-- The 63 ticks 08:59:00 .. 09:00:02 of 2026-03-09 (a Monday;
`month` is the 0-based `getMonth()` value). -/
def c2Ticks : List Wall :=
  (List.range 63).map fun i =>
    let t := 32340 + i
    ⟨2026, 2, 9, t / 3600, t % 3600 / 60, t % 60⟩

/-! ## CSV tokenizer (`parseCSV`, src/unnamed/part_008 Go and
src/unnamed/part_016 TS, identical logic)

The source loop appends completed rows to a result array; the embedding
produces them head-first by recursion, accumulating the current field as
a character list (`current strings.Builder`) and the current row. -/

def parseCSVAux : List Char → Bool → List Char → List String → List (List String)
  | [], _, cur, row =>
    if cur ≠ [] ∨ row ≠ [] then [row ++ [⟨cur⟩]] else []
  | '"' :: '"' :: rest, true, cur, row => parseCSVAux rest true (cur ++ ['"']) row
  | '"' :: rest, true, cur, row => parseCSVAux rest false cur row
  | c :: rest, true, cur, row => parseCSVAux rest true (cur ++ [c]) row
  | '"' :: rest, false, cur, row => parseCSVAux rest true cur row
  | ',' :: rest, false, cur, row => parseCSVAux rest false [] (row ++ [⟨cur⟩])
  | '\r' :: '\n' :: rest, false, cur, row => (row ++ [⟨cur⟩]) :: parseCSVAux rest false [] []
  | '\n' :: rest, false, cur, row => (row ++ [⟨cur⟩]) :: parseCSVAux rest false [] []
  | c :: rest, false, cur, row => parseCSVAux rest false (cur ++ [c]) row

/-- `parseCSV(csvText)`: RFC-4180-style tokenizer. -/
def parseCSV (csvText : String) : List (List String) :=
  parseCSVAux csvText.data false [] []

/-- Fields joined with `","` (the join of the round-trip property of §8
of the spec). -/
def joinFields : List String → String
  | [] => ""
  | [f] => f
  | f :: fs => f ++ "," ++ joinFields fs

/-- Rows joined with `"\n"`: the text whose tokenization must
reconstruct the row set. -/
def joinRows : List (List String) → String
  | [] => ""
  | [r] => joinFields r
  | r :: rs => joinFields r ++ "\n" ++ joinRows rs

/-- A field with none of the characters the tokenizer treats specially:
no comma, no quote, no newline (LF or CR). -/
def cleanField (f : String) : Bool :=
  f.data.all fun c => ¬(c = ',' ∨ c = '"' ∨ c = '\n' ∨ c = '\r')

/-! ## Timetable builder (`csvToTimetableData`, src/unnamed/part_008;
the TS twin in part_016 differs only in using `parseInt`, which agrees
with Go `strconv.Atoi` on all-digit column values) -/

structure TimetableData where
  periods : List PeriodTime
  subjects : List (List String)
deriving DecidableEq, Repr

/-- Go `strconv.Atoi`: optionally signed all-digit string, else error
(`none`). -/
def goAtoi (s : String) : Option Int :=
  match s.data with
  | [] => none
  | '+' :: ds => if ds ≠ [] ∧ ds.all Char.isDigit then some (digitsToNat ds) else none
  | '-' :: ds => if ds ≠ [] ∧ ds.all Char.isDigit then some (-(digitsToNat ds : Int)) else none
  | ds => if ds.all Char.isDigit then some (digitsToNat ds) else none

/-- The regex `^\d{1,2}:\d{2}$`. -/
def matchesTimeRe (s : String) : Bool :=
  match s.data with
  | [a, c, b1, b2] => a.isDigit && c = ':' && b1.isDigit && b2.isDigit
  | [a1, a2, c, b1, b2] => a1.isDigit && a2.isDigit && c = ':' && b1.isDigit && b2.isDigit
  | _ => false

/-- Zero-pad `H:MM` to `HH:MM` (`if len == 4 { "0" + s }`). -/
def padTime (s : String) : String :=
  if s.length = 4 then "0" ++ s else s

/-- One iteration of the data-row loop of `csvToTimetableData`: `none`
when the row is skipped (fewer than 3 columns, non-integer period
number, or a time failing the regex), else the period and its five
day-subject cells. -/
def parseTimetableRow (cols : List String) : Option (PeriodTime × List String) :=
  if cols.length < 3 then none
  else
    match goAtoi (strTrim (cols.headD "")) with
    | none => none
    | some periodNum =>
      let start := strTrim (cols.getD 1 "")
      let endV := strTrim (cols.getD 2 "")
      if matchesTimeRe start ∧ matchesTimeRe endV then
        some (⟨periodNum, padTime start, padTime endV⟩,
          (List.range 5).map fun d => strTrim (cols.getD (3 + d) ""))
      else none

/-- `csvToTimetableData(rows)`: skip the header row, keep the surviving
data rows (periods and subjects grow in lockstep), `nil` when fewer than
2 rows or no period survives. -/
def csvToTimetableData (rows : List (List String)) : Option TimetableData :=
  if rows.length < 2 then none
  else
    let parsed := (rows.drop 1).filterMap parseTimetableRow
    if parsed.map Prod.fst = [] then none
    else some ⟨parsed.map Prod.fst, parsed.map Prod.snd⟩

/-! ## Event merger (`mergeEvents`, src/unnamed/part_005 Go; the inline
TS merge in part_016 `fetchAllDashboardData` deduplicates and caps the
same way but sorts with the stable `Array.prototype.sort`) -/

/-- Go `ScheduleEvent{Date, Name, Detail string}`. -/
structure ScheduleEvent where
  date : String
  name : String
  detail : String
deriving DecidableEq, Repr

/-- The dedup key `e.Date + "-" + e.Name`. -/
def eventKey (e : ScheduleEvent) : String := e.date ++ "-" ++ e.name

/-- The first loop of `mergeEvents`: keep the first occurrence of each
key (`seen` map), in input order. -/
def dedupEvents : List ScheduleEvent → List String → List ScheduleEvent
  | [], _ => []
  | e :: rest, seen =>
    if eventKey e ∈ seen then dedupEvents rest seen
    else e :: dedupEvents rest (eventKey e :: seen)

/-- The body of the double loop
`for i { for j > i { if result[i].Date > result[j].Date { swap } } }`
for one value of `i`: scan the suffix holding the current occupant of
slot `i`, swapping whenever a later element is smaller.  Returns the
final occupant of slot `i` and the updated suffix. -/
def innerPass (x : ScheduleEvent) : List ScheduleEvent → ScheduleEvent × List ScheduleEvent
  | [] => (x, [])
  | y :: l =>
    if strGt x.date y.date then
      let r := innerPass y l
      (r.1, x :: r.2)
    else
      let r := innerPass x l
      (r.1, y :: r.2)

/-- The full exchange sort of `mergeEvents`; the outer loop runs once per
element, so the fuel is the list length. -/
def exchangeSortAux : Nat → List ScheduleEvent → List ScheduleEvent
  | 0, l => l
  | _ + 1, [] => []
  | n + 1, x :: l =>
    let r := innerPass x l
    r.1 :: exchangeSortAux n r.2

def exchangeSort (l : List ScheduleEvent) : List ScheduleEvent :=
  exchangeSortAux l.length l

/-- `mergeEvents(neis, sheet)`: concatenate, dedup by first occurrence,
exchange-sort ascending by date, cap at 30. -/
def mergeEvents (neis sheet : List ScheduleEvent) : List ScheduleEvent :=
  (exchangeSort (dedupEvents (neis ++ sheet) [])).take 30

/-- Stable insertion into a date-sorted list: the new element goes after
every element whose date is ≤ its own. -/
def stableInsert (a : ScheduleEvent) : List ScheduleEvent → List ScheduleEvent
  | [] => [a]
  | b :: l => if strLt a.date b.date then a :: b :: l else b :: stableInsert a l

/-- Stable sort ascending by date (insertion sort processing the input
left to right, so equal dates keep their input order). -/
def stableSortByDate (l : List ScheduleEvent) : List ScheduleEvent :=
  l.foldl (fun acc a => stableInsert a acc) []

/-- The reference merge of the specification, literally: concatenate all
of A then all of B, keep the first occurrence of each `date + "-" + name`
key, sort the survivors (stably) ascending by date, truncate to 30. -/
def mergeEventsSpec (neis sheet : List ScheduleEvent) : List ScheduleEvent :=
  (stableSortByDate (dedupEvents (neis ++ sheet) [])).take 30

/-- Stable insertion sort for plain strings, used to state which dates
survive the cap. -/
def strInsert (a : String) : List String → List String
  | [] => [a]
  | b :: l => if strLt a b then a :: b :: l else b :: strInsert a l

def strSort (l : List String) : List String :=
  l.foldl (fun acc a => strInsert a acc) []

/-! ## Date normalizer (`parseDateToYYYYMMDD`, src/unnamed/part_008)

The three regexes are transcribed as backtracking parsers over the
character list:

* pattern 1, `^(\d{4})\s*[-./]\s*(\d{1,2})\s*[-./]\s*(\d{1,2})` — a
  *prefix* match (not end-anchored), each separator drawn independently
  from `[-./]`;
* pattern 2, `^(\d{4})(\d{2})(\d{2})$`;
* pattern 3, `^(\d{1,2})/(\d{1,2})/(\d{4})$`.

Failure is the empty string, exactly as the Go function returns `""`
(the TS variant in part_016 returns `null` and supports only the first
two patterns, with the same `[-./]` class and the same missing end
anchor on pattern 1). -/

/-- Take exactly `n` leading digits. -/
def takeDigitsN : Nat → List Char → Option (List Char × List Char)
  | 0, cs => some ([], cs)
  | _ + 1, [] => none
  | n + 1, c :: cs =>
    if c.isDigit then
      match takeDigitsN n cs with
      | some (ds, rest) => some (c :: ds, rest)
      | none => none
    else none

def isDateSep (c : Char) : Bool := c = '-' ∨ c = '.' ∨ c = '/'

/-- `\s*[-./]\s*` (Go `\s` = space, tab, LF, FF, CR). -/
def sepSkip (cs : List Char) : Option (List Char) :=
  match cs.dropWhile isWsp with
  | c :: rest => if isDateSep c then some (rest.dropWhile isWsp) else none
  | [] => none

/-- `(\d{1,2})` greedily, with nothing required after it. -/
def take2or1 (cs : List Char) : Option (List Char × List Char) :=
  match takeDigitsN 2 cs with
  | some r => some r
  | none => takeDigitsN 1 cs

/-- `(\d{1,2})\s*[-./]\s*`: try two digits, backtrack to one. -/
def take2or1Sep (cs : List Char) : Option (List Char × List Char) :=
  match takeDigitsN 2 cs with
  | some (ds, rest) =>
    match sepSkip rest with
    | some rest2 => some (ds, rest2)
    | none =>
      match takeDigitsN 1 cs with
      | some (ds1, rest1) =>
        match sepSkip rest1 with
        | some rest2 => some (ds1, rest2)
        | none => none
      | none => none
  | none =>
    match takeDigitsN 1 cs with
    | some (ds1, rest1) =>
      match sepSkip rest1 with
      | some rest2 => some (ds1, rest2)
      | none => none
    | none => none

/-- Pattern 1 as a prefix match, returning the three capture groups. -/
def datePat1 (cs : List Char) : Option (String × String × String) :=
  match takeDigitsN 4 cs with
  | none => none
  | some (y, r1) =>
    match sepSkip r1 with
    | none => none
    | some r2 =>
      match take2or1Sep r2 with
      | none => none
      | some (m, r3) =>
        match take2or1 r3 with
        | none => none
        | some (d, _) => some (⟨y⟩, ⟨m⟩, ⟨d⟩)

/-- Pattern 2: exactly eight digits. -/
def datePat2 (cs : List Char) : Option String :=
  if cs.length = 8 ∧ cs.all Char.isDigit then some ⟨cs⟩ else none

/-- The literal `/` between the components of pattern 3. -/
def expectSlash : List Char → Option (List Char)
  | c :: rest => if c = '/' then some rest else none
  | [] => none

/-- Pattern 3: `M/D/YYYY`, anchored at both ends. -/
def datePat3 (cs : List Char) : Option (String × String × String) :=
  match take2or1 cs with
  | none => none
  | some (m, r1) =>
    match expectSlash r1 with
    | none => none
    | some r2 =>
      match take2or1 r2 with
      | none => none
      | some (d, r3) =>
        match expectSlash r3 with
        | none => none
        | some r4 =>
          match takeDigitsN 4 r4 with
          | some (y, []) => some (⟨m⟩, ⟨d⟩, ⟨y⟩)
          | _ => none

/-- Zero-pad a 1-digit capture to two digits. -/
def pad2 (s : String) : String :=
  if s.length = 1 then "0" ++ s else s

/-- `parseDateToYYYYMMDD(raw)`: trim, then patterns 1, 2, 3 in order;
`""` when none matches. -/
def parseDateToYYYYMMDD (raw : String) : String :=
  let t := trimChars raw.data
  match datePat1 t with
  | some (y, m, d) => y ++ pad2 m ++ pad2 d
  | none =>
    match datePat2 t with
    | some s => s
    | none =>
      match datePat3 t with
      | some (m, d, y) => y ++ pad2 m ++ pad2 d
      | none => ""

/-! ## Study-plan builder (src/unnamed/part_008) -/

structure StudyPlanBlock where
  title : String
  headers : List String
  rows : List (List String)
deriving DecidableEq, Repr

structure StudyPlanResult where
  blocks : List StudyPlanBlock
  currentIndex : Int
deriving DecidableEq, Repr

/-- Substring test (Go `strings.Contains`). -/
def leadsWith : List Char → List Char → Bool
  | [], _ => true
  | _ :: _, [] => false
  | p :: ps, c :: cs => p = c && leadsWith ps cs

def hasSubChars (pat : List Char) : List Char → Bool
  | [] => leadsWith pat []
  | c :: cs => leadsWith pat (c :: cs) || hasSubChars pat cs

def containsSub (s pat : String) : Bool := hasSubChars pat.data s.data

/-- The first `\(([^)]+)\)` group of a string: the leftmost `(` followed
by at least one non-`)` character and then a `)`. -/
def findParen : List Char → Option (List Char)
  | [] => none
  | c :: cs =>
    if c = '(' then
      let content := cs.takeWhile (· ≠ ')')
      if content ≠ [] ∧ cs.dropWhile (· ≠ ')') ≠ [] then some content
      else findParen cs
    else findParen cs

/-- Go `strings.SplitN(s, "~", 2)`. -/
def splitTilde (s : String) : List String :=
  let before := s.data.takeWhile (· ≠ '~')
  if before.length < s.data.length then
    [⟨before⟩, ⟨s.data.drop (before.length + 1)⟩]
  else [s]

/-- `extractDateRange(title)`: the parenthesized range of a block title,
split on `~`, both sides normalized; `("","")` when absent or invalid; a
single unpaired date serves as both ends. -/
def extractDateRange (title : String) : String × String :=
  match findParen title.data with
  | none => ("", "")
  | some inner =>
    match splitTilde ⟨inner⟩ with
    | [a, b] =>
      let s := parseDateToYYYYMMDD (strTrim a)
      let e := parseDateToYYYYMMDD (strTrim b)
      if s = "" ∨ e = "" then ("", "") else (s, e)
    | parts =>
      let d := parseDateToYYYYMMDD (strTrim (parts.headD ""))
      (d, d)

/-- `isTitleRow(row)`: column 0 non-empty, all later columns empty. -/
def isTitleRow (row : List String) : Bool :=
  match row with
  | [] => false
  | c0 :: rest => strTrim c0 ≠ "" && rest.all (fun c => strTrim c = "")

/-- `isHeaderRow(row)`: column 0 empty and some later column holds a
day-name token. -/
def isHeaderRow (row : List String) : Bool :=
  row.length ≥ 2 && strTrim (row.headD "") = "" &&
    (row.drop 1).any fun v =>
      let t := strTrim v
      containsSub t "요일" || t = "월" || t = "화" || t = "수" || t = "목" || t = "금"

/-- A title row with the rows collected under it (`rawBlock` in the Go
source, which precomputes the extracted date range). -/
structure RawBlock where
  title : String
  startDate : String
  endDate : String
  rows : List (List String)
deriving DecidableEq, Repr

def mkRawBlock (title : String) (rows : List (List String)) : RawBlock :=
  let r := extractDateRange title
  ⟨title, r.1, r.2, rows⟩

/-- The block-splitting loop of `csvToStudyPlan` after the first title
row has been seen: empty rows are skipped, a title row closes the block
in progress, other rows are appended to it. -/
def splitRawIn (title : String) (acc : List (List String)) :
    List (List String) → List RawBlock
  | [] => [mkRawBlock title acc]
  | r :: rest =>
    if r = [] then splitRawIn title acc rest
    else if isTitleRow r then
      mkRawBlock title acc :: splitRawIn (strTrim (r.headD "")) [] rest
    else splitRawIn title (acc ++ [r]) rest

/-- The block-splitting loop before the first title row: rows ahead of
any title are dropped. -/
def splitRaw : List (List String) → List RawBlock
  | [] => []
  | r :: rest =>
    if isTitleRow r then splitRawIn (strTrim (r.headD "")) [] rest
    else splitRaw rest

/-- One period-label row under construction: its label and `numCols`
per-day cells. -/
def cellsOf (numCols : Nat) (row : List String) : List String :=
  (List.range numCols).map fun j => strTrim (row.getD (j + 1) "")

/-- Newline-join a continuation row's cells into the last period row. -/
def mergeCells : List String → List String → List String
  | [], _ => []
  | old :: olds, [] => old :: olds
  | old :: olds, c :: cs =>
    (if c ≠ "" then (if old ≠ "" then old ++ "\n" ++ c else c) else old)
      :: mergeCells olds cs

def intoLast (cells : List String) :
    List (String × List String) → List (String × List String)
  | [] => []
  | [p] => [(p.1, mergeCells p.2 cells)]
  | p :: ps => p :: intoLast cells ps

/-- The data-row loop of `parseStudyPlanBlock`: column 0 non-empty opens
a new period row; column 0 empty merges into the last period row (and is
dropped when no period row exists yet). -/
def collectPeriods (numCols : Nat) :
    List (List String) → List (String × List String) → List (String × List String)
  | [], acc => acc
  | row :: rest, acc =>
    let col0 := strTrim (row.headD "")
    let cells := cellsOf numCols row
    if col0 ≠ "" then collectPeriods numCols rest (acc ++ [(col0, cells)])
    else
      match acc with
      | [] => collectPeriods numCols rest []
      | a :: as => collectPeriods numCols rest (intoLast cells (a :: as))

/-- `parseStudyPlanBlock(title, rows)`: `nil` for fewer than 2 rows, no
header row, empty headers, or zero period rows; otherwise the block with
`rows[i] = label :: cells`. -/
def parseStudyPlanBlock (title : String) (rows : List (List String)) :
    Option StudyPlanBlock :=
  if rows.length < 2 then none
  else
    match List.findIdx? isHeaderRow rows with
    | none => none
    | some headerIdx =>
      let headerRow := rows.getD headerIdx []
      let headers := (headerRow.drop 1).filterMap fun c =>
        let h := strTrim c
        if h ≠ "" then some h else none
      if headers = [] then none
      else
        let periods := collectPeriods headers.length (rows.drop (headerIdx + 1)) []
        if periods = [] then none
        else some ⟨title, headers, periods.map fun p => p.1 :: p.2⟩

/-- The block-assembly loop of `csvToStudyPlan`, with today's date string
injected (the source reads `time.Now()`): parse each raw block, skip
failures, and set `currentIndex` once at the first parsed block whose
stored date range contains today. -/
def buildBlocksAux (todayStr : String) :
    List RawBlock → List StudyPlanBlock → Int → List StudyPlanBlock × Int
  | [], blocks, ci => (blocks, ci)
  | rb :: rest, blocks, ci =>
    match parseStudyPlanBlock rb.title rb.rows with
    | none => buildBlocksAux todayStr rest blocks ci
    | some b =>
      let idx : Int := blocks.length
      let ci' :=
        if ci < 0 ∧ rb.startDate ≠ "" ∧ rb.endDate ≠ "" ∧
            strLe rb.startDate todayStr ∧ strLe todayStr rb.endDate then idx
        else ci
      buildBlocksAux todayStr rest (blocks ++ [b]) ci'

/-- `csvToStudyPlan(rows)` with today's date string injected. -/
def csvToStudyPlan (todayStr : String) (rows : List (List String)) :
    Option StudyPlanResult :=
  if rows.length < 3 then none
  else
    match splitRaw rows with
    | [] => none
    | rb :: rbs =>
      let r := buildBlocksAux todayStr (rb :: rbs) [] (-1)
      match r with
      | ([], _) => none
      | (b :: bs, ci) =>
        some ⟨b :: bs, if ci < 0 then (b :: bs).length - 1 else ci⟩

/-! ## Predicates and concrete inputs used by the theorem statements -/

/-- A period whose two times parse to minutes with `start < end`
(in particular both parse, i.e. neither is NaN). -/
def periodWF (p : PeriodTime) : Bool :=
  jsLtB (timeStrMinutes p.start) (timeStrMinutes p.endT)

/-- Adjacent periods are ordered: each end is at or before the next
start. -/
def chainWF : List PeriodTime → Bool
  | [] => true
  | [_] => true
  | p :: q :: rest =>
    jsLeB (timeStrMinutes p.endT) (timeStrMinutes q.start) && chainWF (q :: rest)

/-- A well-formed, ordered period list. -/
def wellFormedPeriods (l : List PeriodTime) : Bool :=
  l.all periodWF && chainWF l

/-- Ascending-by-date as the spec reads it (fixed-width `YYYYMMDD`
strings, lexicographic). -/
def dateSorted (l : List ScheduleEvent) : Prop :=
  l.Pairwise fun a b => strLe a.date b.date = true

/-- The date-range test `csvToStudyPlan` applies to a parsed block,
expressed over the block itself (its verbatim title carries the range). -/
def blockMatches (todayStr : String) (b : StudyPlanBlock) : Bool :=
  let r := extractDateRange b.title
  r.1 ≠ "" && r.2 ≠ "" && strLe r.1 todayStr && strLe todayStr r.2

/-- The single-period timetable of the spec's §8 examples. -/
def singlePeriod : List PeriodTime := [⟨1, "09:00", "09:40"⟩]

/-- Ticks for the midnight-reset scenario: 09:00:00 on 2026-03-09, then
00:00:00 and 09:00:00 on 2026-03-10 (0-based months). -/
def c9Ticks : List Wall :=
  [⟨2026, 2, 9, 9, 0, 0⟩, ⟨2026, 2, 10, 0, 0, 0⟩, ⟨2026, 2, 10, 9, 0, 0⟩]

/-- Three events with a date tie ahead of an earlier date: the unstable
exchange sort of `mergeEvents` reorders the tie. -/
def c1TieEvents : List ScheduleEvent :=
  [⟨"20260102", "x", ""⟩, ⟨"20260102", "y", ""⟩, ⟨"20260101", "z", ""⟩]

/-- A timetable CSV whose data row carries period number `0`. -/
def c4Rows : List (List String) :=
  [["교시", "시작", "종료", "월"], ["0", "9:00", "9:40", "수학"]]

/-- A study-plan CSV: title row with range 2026-03-01..2026-03-08,
header row, one period row. -/
def c5Rows : List (List String) :=
  [["1주차 (2026.03.01.~2026.03.08.)"], ["", "월", "화"], ["1", "국어", "수학"]]

/-- A study-plan block body: header, period row, continuation row. -/
def c7Rows : List (List String) :=
  [["", "월", "화"], ["1교시", "a", "b"], ["", "x", ""]]

/-! ## Lemmas about the alarm scheduler -/

/-- A single trigger check either falls through untouched or fires with
a key that was not yet recorded, recording it. -/
theorem fireStep_cases (cond : Bool) (key : String) (ev : AlarmEvent)
    (pl : List String) (next : Option AlarmEvent × List String) :
    fireStep cond key ev pl next = next ∨
      (fireStep cond key ev pl next = (some ev, key :: pl) ∧ key ∉ pl) := by
  by_cases hc : cond = true
  · by_cases hk : key ∈ pl
    · left; simp [fireStep, shouldPlayAlarm, hc, hk]
    · right
      refine ⟨?_, hk⟩
      simp [fireStep, shouldPlayAlarm, hc, hk]
  · left; simp [fireStep, hc]

/-- The period loop either leaves the played set untouched and fires
nothing, or fires one event whose key was fresh and is now recorded. -/
theorem alarmScan_cases (cm : Option Int) (now : Wall) :
    ∀ (ps : List PeriodTime) (pl : List String),
      alarmScan cm now ps pl = (none, pl) ∨
      ∃ e, alarmScan cm now ps pl = (some e, getAlarmKey now e.period e.type :: pl) ∧
        getAlarmKey now e.period e.type ∉ pl := by
  intro ps
  induction ps with
  | nil => intro pl; left; rfl
  | cons p rest ih =>
    intro pl
    simp only [alarmScan]
    rcases fireStep_cases (jsEqB cm (timeStrMinutes p.endT))
        (getAlarmKey now p.period .ending) ⟨p.period, .ending⟩ pl
        (alarmScan cm now rest pl) with h3 | ⟨h3, hk3⟩
    · rw [h3]
      rcases fireStep_cases (jsEqB cm (timeStrMinutes p.start))
          (getAlarmKey now p.period .start) ⟨p.period, .start⟩ pl
          (alarmScan cm now rest pl) with h2 | ⟨h2, hk2⟩
      · rw [h2]
        rcases fireStep_cases (jsEqB cm (jsSub (timeStrMinutes p.start) (some 1)))
            (getAlarmKey now p.period .warning) ⟨p.period, .warning⟩ pl
            (alarmScan cm now rest pl) with h1 | ⟨h1, hk1⟩
        · rw [h1]; exact ih pl
        · rw [h1]; exact Or.inr ⟨⟨p.period, .warning⟩, rfl, hk1⟩
      · rw [h2]
        rcases fireStep_cases (jsEqB cm (jsSub (timeStrMinutes p.start) (some 1)))
            (getAlarmKey now p.period .warning) ⟨p.period, .warning⟩ pl
            (some ⟨p.period, .start⟩, getAlarmKey now p.period .start :: pl)
            with h1 | ⟨h1, hk1⟩
        · rw [h1]; exact Or.inr ⟨⟨p.period, .start⟩, rfl, hk2⟩
        · rw [h1]; exact Or.inr ⟨⟨p.period, .warning⟩, rfl, hk1⟩
    · rw [h3]
      rcases fireStep_cases (jsEqB cm (timeStrMinutes p.start))
          (getAlarmKey now p.period .start) ⟨p.period, .start⟩ pl
          (some ⟨p.period, .ending⟩, getAlarmKey now p.period .ending :: pl)
          with h2 | ⟨h2, hk2⟩
      · rw [h2]
        rcases fireStep_cases (jsEqB cm (jsSub (timeStrMinutes p.start) (some 1)))
            (getAlarmKey now p.period .warning) ⟨p.period, .warning⟩ pl
            (some ⟨p.period, .ending⟩, getAlarmKey now p.period .ending :: pl)
            with h1 | ⟨h1, hk1⟩
        · rw [h1]; exact Or.inr ⟨⟨p.period, .ending⟩, rfl, hk3⟩
        · rw [h1]; exact Or.inr ⟨⟨p.period, .warning⟩, rfl, hk1⟩
      · rw [h2]
        rcases fireStep_cases (jsEqB cm (jsSub (timeStrMinutes p.start) (some 1)))
            (getAlarmKey now p.period .warning) ⟨p.period, .warning⟩ pl
            (some ⟨p.period, .start⟩, getAlarmKey now p.period .start :: pl)
            with h1 | ⟨h1, hk1⟩
        · rw [h1]; exact Or.inr ⟨⟨p.period, .start⟩, rfl, hk2⟩
        · rw [h1]; exact Or.inr ⟨⟨p.period, .warning⟩, rfl, hk1⟩

/-- `checkAndPlayAlarms` either is a no-op on the played set or fires
one event with a fresh key, recording it. -/
theorem checkAndPlayAlarms_cases (P : List PeriodTime) (en : Bool) (t : Wall)
    (pl : List String) :
    checkAndPlayAlarms P en t pl = (none, pl) ∨
      ∃ e, checkAndPlayAlarms P en t pl =
          (some e, getAlarmKey t e.period e.type :: pl) ∧
        getAlarmKey t e.period e.type ∉ pl := by
  unfold checkAndPlayAlarms
  by_cases he : en
  · by_cases hs : t.seconds > 2
    · left; simp [he, hs]
    · simpa [he, hs] using alarmScan_cases (some ((t.hours : Int) * 60 + t.minutes)) t P pl
  · left; simp [he]

/-- `getAlarmKey` reads only the calendar-day fields of the clock. -/
theorem getAlarmKey_of_day (t : Wall) (y mo d : Nat) (pd : Int) (ph : AlarmType)
    (h1 : t.year = y) (h2 : t.month = mo) (h3 : t.day = d) :
    getAlarmKey t pd ph = getAlarmKey ⟨y, mo, d, 0, 0, 0⟩ pd ph := by
  simp [getAlarmKey, h1, h2, h3]

/-- Once the key of a (day, period, phase) combination is in the played
set, a run of ticks on that day never fires that combination again. -/
theorem runAlarms_count_zero (P : List PeriodTime) (en : Bool)
    (y mo d : Nat) (pd : Int) (ph : AlarmType) :
    ∀ (ticks : List Wall) (s : List String),
      (∀ t ∈ ticks, t.year = y ∧ t.month = mo ∧ t.day = d) →
      getAlarmKey ⟨y, mo, d, 0, 0, 0⟩ pd ph ∈ s →
      (runAlarms P en ticks s).1.countP (fun e => decide (e = ⟨pd, ph⟩)) = 0 := by
  intro ticks
  induction ticks with
  | nil => intro s _ _; rfl
  | cons t ts ih =>
    intro s hday hmem
    obtain ⟨hy, hmo, hd⟩ := hday t (by simp)
    have hday' : ∀ t' ∈ ts, t'.year = y ∧ t'.month = mo ∧ t'.day = d :=
      fun t' ht' => hday t' (by simp [ht'])
    simp only [runAlarms]
    rcases checkAndPlayAlarms_cases P en t s with h | ⟨e, h, hk⟩
    · rw [h]
      simpa using ih s hday' hmem
    · rw [h]
      have hkey : getAlarmKey t e.period e.type ∈
          getAlarmKey t e.period e.type :: s := by simp
      have hne : e ≠ ⟨pd, ph⟩ := by
        intro hcontra
        apply hk
        rw [hcontra]
        rw [getAlarmKey_of_day t y mo d pd ph hy hmo hd]
        exact hmem
      have hrest := ih (getAlarmKey t e.period e.type :: s) hday' (by simp [hmem])
      simp [List.countP_cons, hne, hrest]

/-- Main at-most-once lemma: over ticks all on one calendar day, a given
(period, phase) fires at most once, from any starting state. -/
theorem runAlarms_count_le_one (P : List PeriodTime) (en : Bool)
    (y mo d : Nat) (pd : Int) (ph : AlarmType) :
    ∀ (ticks : List Wall) (s : List String),
      (∀ t ∈ ticks, t.year = y ∧ t.month = mo ∧ t.day = d) →
      (runAlarms P en ticks s).1.countP (fun e => decide (e = ⟨pd, ph⟩)) ≤ 1 := by
  intro ticks
  induction ticks with
  | nil => intro s _; simp [runAlarms]
  | cons t ts ih =>
    intro s hday
    obtain ⟨hy, hmo, hd⟩ := hday t (by simp)
    have hday' : ∀ t' ∈ ts, t'.year = y ∧ t'.month = mo ∧ t'.day = d :=
      fun t' ht' => hday t' (by simp [ht'])
    simp only [runAlarms]
    rcases checkAndPlayAlarms_cases P en t s with h | ⟨e, h, hk⟩
    · rw [h]
      simpa using ih s hday'
    · rw [h]
      by_cases hne : e = ⟨pd, ph⟩
      · subst hne
        have hzero := runAlarms_count_zero P en y mo d pd ph ts
          (getAlarmKey t pd ph :: s) hday'
          (by rw [← getAlarmKey_of_day t y mo d pd ph hy hmo hd]; simp)
        simp [List.countP_cons, hzero]
      · have hrest := ih (getAlarmKey t e.period e.type :: s) hday'
        simp only [Option.toList_some, List.singleton_append, List.countP_cons]
        simpa [hne] using hrest

/-! ## Claim theorems: C2, C3, C9 -/

/-- C2: across a run of 1-second ticks within one calendar day,
`checkAndPlayAlarms` fires each (calendar-day, period, phase)
combination at most once — the firing-record set is consulted and
extended before the event is returned, and each call returns zero or
one `AlarmEvent` (the `Option` result).  In particular, for a period
starting at 09:00, ticking once per second from 08:59:00 through
09:00:02 fires the `start` phase exactly once. -/
theorem c2_alarm_at_most_once (P : List PeriodTime) (en : Bool)
    (y mo d : Nat) (pd : Int) (ph : AlarmType)
    (ticks : List Wall) (s : List String)
    (hday : ∀ t ∈ ticks, t.year = y ∧ t.month = mo ∧ t.day = d) :
    (runAlarms P en ticks s).1.countP (fun e => decide (e = ⟨pd, ph⟩)) ≤ 1 ∧
    (runAlarms singlePeriod true c2Ticks []).1.countP
      (fun e => decide (e = ⟨1, AlarmType.start⟩)) = 1 :=
  ⟨runAlarms_count_le_one P en y mo d pd ph ticks s hday, by decide⟩

/-- Witness for C2 at the concrete 08:59:00..09:00:02 run. -/
theorem c2_alarm_at_most_once_witness :
    (runAlarms singlePeriod true c2Ticks []).1.countP
        (fun e => decide (e = ⟨1, AlarmType.start⟩)) ≤ 1 ∧
    (runAlarms singlePeriod true c2Ticks []).1.countP
        (fun e => decide (e = ⟨1, AlarmType.start⟩)) = 1 :=
  c2_alarm_at_most_once singlePeriod true 2026 2 9 1 .start c2Ticks [] (by decide)

/-- C3: period-status boundaries for the single period 09:00–09:40 on a
weekday (Monday, `getDay() = 1`): 08:49 → before-school (more than 10
minutes early), 08:55 → prep, 09:00 → in-class with `minutesLeft = 40`,
09:40 → after-school (no further periods), all computed by first-match
selection on minutes-since-midnight integers. -/
theorem c3_period_status_boundaries :
    getCurrentPeriodStatus singlePeriod ⟨1, 8, 49⟩ =
      ⟨.beforeSchool, none, some 1, "등교 전 (1교시까지 11분)", some (some 11)⟩ ∧
    getCurrentPeriodStatus singlePeriod ⟨1, 8, 55⟩ =
      ⟨.prep, none, some 1, "준비시간 (5분 전)", some (some 5)⟩ ∧
    getCurrentPeriodStatus singlePeriod ⟨1, 9, 0⟩ =
      ⟨.inClass, some 1, none, "1교시 수업 중 (40분 남음)", some (some 40)⟩ ∧
    getCurrentPeriodStatus singlePeriod ⟨1, 9, 40⟩ =
      ⟨.afterSchool, none, none, "하교 시간", none⟩ :=
  ⟨by decide, by decide, by decide, by decide⟩

/-- C9: a tick observing 00:00 clears the firing-record set
(`resetAlarmsIfNewDay`), and replaying the same trigger time on the
next calendar day fires the same (period, phase) again: the two-day run
09:00:00 (day 1), 00:00:00 and 09:00:00 (day 2) fires `start` twice,
and the state after the midnight tick is empty. -/
theorem c9_midnight_reset (s : List String) (now : Wall)
    (h0 : now.hours = 0) (h1 : now.minutes = 0) :
    resetAlarmsIfNewDay now s = [] ∧
    (runAlarmsWithReset singlePeriod true
      [⟨2026, 2, 9, 9, 0, 0⟩, ⟨2026, 2, 10, 0, 0, 0⟩] []).2 = [] ∧
    (runAlarmsWithReset singlePeriod true c9Ticks []).1 =
      [⟨1, .start⟩, ⟨1, .start⟩] := by
  refine ⟨?_, by decide, by decide⟩
  simp [resetAlarmsIfNewDay, h0, h1]

/-- Witness for C9 at a concrete midnight reading. -/
theorem c9_midnight_reset_witness :
    resetAlarmsIfNewDay ⟨2026, 2, 10, 0, 0, 0⟩ ["2026-2-9-1-start"] = [] ∧
    (runAlarmsWithReset singlePeriod true
      [⟨2026, 2, 9, 9, 0, 0⟩, ⟨2026, 2, 10, 0, 0, 0⟩] []).2 = [] ∧
    (runAlarmsWithReset singlePeriod true c9Ticks []).1 =
      [⟨1, .start⟩, ⟨1, .start⟩] :=
  c9_midnight_reset ["2026-2-9-1-start"] ⟨2026, 2, 10, 0, 0, 0⟩ rfl rfl

/-! ## Lemmas about the CSV tokenizer -/

/-- Scanning one clean (unquoted, non-separator) character appends it to
the current field. -/
theorem parseCSVAux_step_clean (c : Char) (l cur : List Char) (row : List String)
    (h1 : c ≠ '"') (h2 : c ≠ ',') (h3 : c ≠ '\r') (h4 : c ≠ '\n') :
    parseCSVAux (c :: l) false cur row = parseCSVAux l false (cur ++ [c]) row := by
  rw [parseCSVAux.eq_def]
  split <;> simp_all

/-- A whole clean field is absorbed into the current field. -/
theorem parseCSVAux_field (cs : List Char)
    (h : ∀ c ∈ cs, ¬(c = ',' ∨ c = '"' ∨ c = '\n' ∨ c = '\r')) :
    ∀ (rest cur : List Char) (row : List String),
      parseCSVAux (cs ++ rest) false cur row =
        parseCSVAux rest false (cur ++ cs) row := by
  induction cs with
  | nil => intro rest cur row; simp
  | cons c cs' ih =>
    intro rest cur row
    have hc := h c (by simp)
    have hcs' : ∀ x ∈ cs', ¬(x = ',' ∨ x = '"' ∨ x = '\n' ∨ x = '\r') :=
      fun x hx => h x (by simp [hx])
    rw [List.cons_append,
      parseCSVAux_step_clean c (cs' ++ rest) cur row
        (by intro hc'; exact hc (by simp [hc']))
        (by intro hc'; exact hc (by simp [hc']))
        (by intro hc'; exact hc (by simp [hc']))
        (by intro hc'; exact hc (by simp [hc'])),
      ih hcs' rest (cur ++ [c]) row]
    simp

/-- A joined row is consumed down to its last field. -/
theorem parseCSVAux_row (f : String) (fs : List String)
    (h : ∀ g ∈ f :: fs, cleanField g = true) :
    ∀ (rest : List Char) (rowAcc : List String),
      parseCSVAux ((joinFields (f :: fs)).data ++ rest) false [] rowAcc =
        parseCSVAux rest false ((f :: fs).getLast (by simp)).data
          (rowAcc ++ (f :: fs).dropLast) := by
  induction fs generalizing f with
  | nil =>
    intro rest rowAcc
    have hf : ∀ c ∈ f.data, ¬(c = ',' ∨ c = '"' ∨ c = '\n' ∨ c = '\r') := by
      have := h f (by simp)
      simpa [cleanField, List.all_eq_true] using this
    simpa [joinFields] using parseCSVAux_field f.data hf rest [] rowAcc
  | cons g gs ih =>
    intro rest rowAcc
    have hf : ∀ c ∈ f.data, ¬(c = ',' ∨ c = '"' ∨ c = '\n' ∨ c = '\r') := by
      have := h f (by simp)
      simpa [cleanField, List.all_eq_true] using this
    have hgs : ∀ x ∈ g :: gs, cleanField x = true := fun x hx => h x (by simp [hx])
    have hjoin : (joinFields (f :: g :: gs)).data =
        f.data ++ ',' :: (joinFields (g :: gs)).data := by
      show (f ++ "," ++ joinFields (g :: gs)).data = _
      simp [String.data_append]
    rw [hjoin]
    simp only [List.append_assoc, List.cons_append]
    rw [parseCSVAux_field f.data hf (',' :: ((joinFields (g :: gs)).data ++ rest)) [] rowAcc]
    have hcomma : parseCSVAux (',' :: ((joinFields (g :: gs)).data ++ rest)) false
        ([] ++ f.data) rowAcc =
        parseCSVAux ((joinFields (g :: gs)).data ++ rest) false []
          (rowAcc ++ [(⟨[] ++ f.data⟩ : String)]) := rfl
    rw [hcomma, ih g hgs rest (rowAcc ++ [(⟨[] ++ f.data⟩ : String)])]
    have : (⟨[] ++ f.data⟩ : String) = f := by simp
    rw [this]
    simp [List.getLast_cons]

/-- C6 round-trip, fully general form over the remaining rows. -/
theorem parseCSV_joinRows (rows : List (List String))
    (hne : ∀ r ∈ rows, r ≠ [])
    (hclean : ∀ r ∈ rows, ∀ f ∈ r, cleanField f = true)
    (hlast : rows.getLast? ≠ some [""]) :
    parseCSVAux (joinRows rows).data false [] [] = rows := by
  induction rows with
  | nil => rfl
  | cons r rs ih =>
    obtain ⟨f, fs, rfl⟩ : ∃ f fs, r = f :: fs := by
      cases r with
      | nil => exact absurd rfl (hne [] (by simp))
      | cons f fs => exact ⟨f, fs, rfl⟩
    have hr : ∀ g ∈ f :: fs, cleanField g = true := hclean _ (by simp)
    cases rs with
    | nil =>
      have hrow := parseCSVAux_row f fs hr [] []
      rw [List.append_nil] at hrow
      have hj : joinRows [f :: fs] = joinFields (f :: fs) := rfl
      rw [hj, hrow, parseCSVAux]
      have hcond : ((f :: fs).getLast (by simp)).data ≠ [] ∨
          ([] ++ (f :: fs).dropLast : List String) ≠ [] := by
        rcases fs.eq_nil_or_concat with hfs | ⟨gs, g, rfl⟩
        · subst hfs
          left
          intro hdata
          apply hlast
          have hf0 : f = "" := by
            cases f with
            | mk d => simp only [List.getLast_singleton] at hdata; simp [hdata]
          simp [hf0]
        · right
          simp only [List.nil_append, List.concat_eq_append]
          rw [show f :: (gs ++ [g]) = (f :: gs) ++ [g] by simp, List.dropLast_concat]
          simp
      rw [if_pos hcond]
      have := List.dropLast_append_getLast (l := f :: fs) (by simp)
      simp only [List.nil_append]
      exact congrArg (fun x => [x]) this
    | cons r2 rs' =>
      have hjoin : (joinRows ((f :: fs) :: r2 :: rs')).data =
          (joinFields (f :: fs)).data ++ '\n' :: (joinRows (r2 :: rs')).data := by
        show (joinFields (f :: fs) ++ "\n" ++ joinRows (r2 :: rs')).data = _
        simp [String.data_append]
      rw [hjoin, parseCSVAux_row f fs hr _ []]
      have hstep : parseCSVAux ('\n' :: (joinRows (r2 :: rs')).data) false
          ((f :: fs).getLast (by simp)).data ([] ++ (f :: fs).dropLast) =
          (([] ++ (f :: fs).dropLast) ++ [(⟨((f :: fs).getLast (by simp)).data⟩ : String)]) ::
            parseCSVAux (joinRows (r2 :: rs')).data false [] [] := rfl
      rw [hstep, ih (fun x hx => hne x (by simp [hx]))
        (fun x hx => hclean x (by simp [hx]))
        (by simpa using hlast)]
      congr 1
      have := List.dropLast_append_getLast (l := f :: fs) (by simp)
      simp only [List.nil_append]
      exact this

/-! ## Claim theorem: C6 -/

/-- C6 (corrected): the tokenizer round-trips every row set whose fields
are free of commas, quotes and newline characters, **provided** every
row has at least one field and the final row is not the lone empty
field `[""]` (such a final row produces no trailing text and is dropped
by the end-of-input emission test, see `c6_counterexample`).  Empty
input tokenizes to zero rows. -/
theorem c6_roundtrip (rows : List (List String))
    (hne : ∀ r ∈ rows, r ≠ [])
    (hclean : ∀ r ∈ rows, ∀ f ∈ r, cleanField f = true)
    (hlast : rows.getLast? ≠ some [""]) :
    parseCSV (joinRows rows) = rows ∧ parseCSV "" = [] :=
  ⟨parseCSV_joinRows rows hne hclean hlast, rfl⟩

/-- Witness for C6 on a concrete two-row set with an empty (non-final)
field. -/
theorem c6_roundtrip_witness :
    parseCSV (joinRows [["a", ""], ["b", "c"]]) = [["a", ""], ["b", "c"]] ∧
    parseCSV "" = [] :=
  c6_roundtrip [["a", ""], ["b", "c"]] (by decide) (by decide) (by decide)

/-- C6 counterexample: the row set `[[""]]` (one row, one empty field —
allowed by the claim, which includes rows with empty fields) joins to
the empty string, which tokenizes to zero rows, not to `[[""]]`. -/
theorem c6_counterexample :
    joinRows [[""]] = "" ∧ parseCSV (joinRows [[""]]) = [] ∧
      parseCSV (joinRows [[""]]) ≠ [[""]] :=
  ⟨rfl, rfl, by decide⟩

/-! ## Order facts about `charsLt` -/

theorem charsLt_irrefl : ∀ a : List Char, charsLt a a = false := by
  intro a
  induction a with
  | nil => rfl
  | cons x xs ih => simp [charsLt, ih]

theorem charsLt_trans : ∀ a b c : List Char,
    charsLt a b = true → charsLt b c = true → charsLt a c = true := by
  intro a
  induction a with
  | nil =>
    intro b c hab hbc
    cases b with
    | nil => simp [charsLt] at hab
    | cons y ys =>
      cases c with
      | nil => simp [charsLt] at hbc
      | cons z zs => rfl
  | cons x xs ih =>
    intro b c hab hbc
    cases b with
    | nil => simp [charsLt] at hab
    | cons y ys =>
      cases c with
      | nil => simp [charsLt] at hbc
      | cons z zs =>
        by_cases h1 : x.toNat < y.toNat
        · by_cases h2 : y.toNat < z.toNat
          · simp [charsLt, show x.toNat < z.toNat by omega]
          · by_cases h3 : z.toNat < y.toNat
            · simp [charsLt, h2, h3] at hbc
            · simp [charsLt, show x.toNat < z.toNat by omega]
        · by_cases h2 : y.toNat < x.toNat
          · simp [charsLt, h1, h2] at hab
          · by_cases h3 : y.toNat < z.toNat
            · simp [charsLt, show x.toNat < z.toNat by omega]
            · by_cases h4 : z.toNat < y.toNat
              · simp [charsLt, h3, h4] at hbc
              · have hab' : charsLt xs ys = true := by
                  simpa [charsLt, h1, h2] using hab
                have hbc' : charsLt ys zs = true := by
                  simpa [charsLt, h3, h4] using hbc
                simp [charsLt, show ¬x.toNat < z.toNat by omega,
                  show ¬z.toNat < x.toNat by omega, ih ys zs hab' hbc']

theorem charsLt_connex : ∀ a b : List Char,
    charsLt a b = false → charsLt b a = false → a = b := by
  intro a
  induction a with
  | nil =>
    intro b hab _
    cases b with
    | nil => rfl
    | cons y ys => simp [charsLt] at hab
  | cons x xs ih =>
    intro b hab hba
    cases b with
    | nil => simp [charsLt] at hba
    | cons y ys =>
      simp only [charsLt] at hab hba
      split_ifs at hab hba with h1 h2 <;> try omega
      have hn : x.toNat = y.toNat := by omega
      have hxy : x = y := Char.ext (UInt32.ext hn)
      exact hxy ▸ congrArg (x :: ·) (ih ys hab hba)

/-- `a ≤ b` and `b ≤ c` give `a ≤ c` (transitivity of the negation of
`charsLt`). -/
theorem strLe_trans {a b c : String} (h1 : strLe a b = true) (h2 : strLe b c = true) :
    strLe a c = true := by
  simp only [strLe, Bool.not_eq_true'] at h1 h2 ⊢
  by_cases hca : charsLt c.data a.data = true
  · by_cases hbc : charsLt b.data c.data = true
    · have := charsLt_trans b.data c.data a.data hbc hca
      rw [this] at h1; cases h1
    · have hbceq := charsLt_connex b.data c.data (by simpa using hbc) h2
      rw [← hbceq] at hca
      rw [hca] at h1; cases h1
  · simpa using hca

/-- `a ≤ b` and `b < c` give `a ≤ c`. -/
theorem strLe_of_le_of_lt {a b c : String}
    (h1 : strLe a b = true) (h2 : charsLt b.data c.data = true) :
    strLe a c = true := by
  simp only [strLe, Bool.not_eq_true', Bool.not_eq_false] at h1 ⊢
  by_cases hca : charsLt c.data a.data = true
  · have := charsLt_trans b.data c.data a.data h2 hca
    rw [this] at h1; cases h1
  · simpa using hca

/-- A strict comparison gives the non-strict one. -/
theorem strLe_of_lt {a b : String} (h : charsLt a.data b.data = true) :
    strLe a b = true := by
  simp only [strLe, Bool.not_eq_true']
  by_cases hba : charsLt b.data a.data = true
  · have := charsLt_trans a.data b.data a.data h hba
    rw [charsLt_irrefl] at this; cases this
  · simpa using hba

theorem strLe_refl (a : String) : strLe a a = true := by
  simp [strLe, charsLt_irrefl]

/-- Totality of `strLe`. -/
theorem strLe_total (a b : String) : strLe a b = true ∨ strLe b a = true := by
  by_cases h : charsLt b.data a.data = true
  · exact Or.inr (strLe_of_lt h)
  · exact Or.inl (by simpa [strLe] using h)

/-- Antisymmetry of `strLe`. -/
theorem strLe_antisymm {a b : String} (h1 : strLe a b = true) (h2 : strLe b a = true) :
    a = b := by
  simp only [strLe, Bool.not_eq_true'] at h1 h2
  have hdata := charsLt_connex a.data b.data h2 h1
  cases a; cases b
  exact congrArg String.mk (by simpa using hdata)

/-! ## Lemmas about the event merger -/

theorem innerPass_length (x : ScheduleEvent) :
    ∀ l : List ScheduleEvent, (innerPass x l).2.length = l.length := by
  intro l
  induction l generalizing x with
  | nil => rfl
  | cons y l ih =>
    by_cases h : strGt x.date y.date = true
    · simp [innerPass, h, ih y]
    · simp [innerPass, h, ih x]

theorem innerPass_perm (x : ScheduleEvent) :
    ∀ l : List ScheduleEvent,
      List.Perm ((innerPass x l).1 :: (innerPass x l).2) (x :: l) := by
  intro l
  induction l generalizing x with
  | nil => exact List.Perm.refl _
  | cons y l ih =>
    by_cases h : strGt x.date y.date = true
    · simp only [innerPass, h, if_true]
      exact (List.Perm.swap x (innerPass y l).1 (innerPass y l).2).trans
        ((ih y).cons x)
    · simp only [innerPass, h, if_false]
      exact (List.Perm.swap y (innerPass x l).1 (innerPass x l).2).trans
        (((ih x).cons y).trans (List.Perm.swap x y l))

theorem innerPass_min (x : ScheduleEvent) :
    ∀ l : List ScheduleEvent,
      strLe (innerPass x l).1.date x.date = true ∧
      ∀ y ∈ (innerPass x l).2, strLe (innerPass x l).1.date y.date = true := by
  intro l
  induction l generalizing x with
  | nil => exact ⟨strLe_refl _, by simp [innerPass]⟩
  | cons y l ih =>
    by_cases h : strGt x.date y.date = true
    · obtain ⟨ih1, ih2⟩ := ih y
      have hyx : charsLt y.date.data x.date.data = true := h
      have hmx : strLe (innerPass y l).1.date x.date = true :=
        strLe_of_le_of_lt ih1 hyx
      refine ⟨?_, ?_⟩
      · simp only [innerPass, h, if_true]
        exact hmx
      · intro z hz
        simp only [innerPass, h, if_true] at hz ⊢
        rcases List.mem_cons.mp hz with rfl | hz'
        · exact hmx
        · exact ih2 z hz'
    · obtain ⟨ih1, ih2⟩ := ih x
      have hxy : strLe x.date y.date = true := by
        simpa [strLe, strGt] using h
      refine ⟨?_, ?_⟩
      · simp only [innerPass, h, if_false]
        exact ih1
      · intro z hz
        simp only [innerPass, h, if_false] at hz ⊢
        rcases List.mem_cons.mp hz with rfl | hz'
        · exact strLe_trans ih1 hxy
        · exact ih2 z hz'

theorem exchangeSortAux_perm : ∀ (n : Nat) (l : List ScheduleEvent),
    List.Perm (exchangeSortAux n l) l := by
  intro n
  induction n with
  | zero => intro l; exact List.Perm.refl _
  | succ n ih =>
    intro l
    cases l with
    | nil => exact List.Perm.refl _
    | cons x l =>
      exact ((ih (innerPass x l).2).cons (innerPass x l).1).trans
        (innerPass_perm x l)

theorem exchangeSortAux_sorted : ∀ (n : Nat) (l : List ScheduleEvent),
    n = l.length →
    (exchangeSortAux n l).Pairwise (fun a b => strLe a.date b.date = true) := by
  intro n
  induction n with
  | zero =>
    intro l hl
    cases l with
    | nil => simp [exchangeSortAux]
    | cons x l => simp at hl
  | succ n ih =>
    intro l hl
    cases l with
    | nil => simp [exchangeSortAux]
    | cons x l =>
      simp only [exchangeSortAux]
      refine List.pairwise_cons.mpr ⟨?_, ?_⟩
      · intro b hb
        have hb' : b ∈ (innerPass x l).2 :=
          (exchangeSortAux_perm n (innerPass x l).2).mem_iff.mp hb
        exact (innerPass_min x l).2 b hb'
      · exact ih (innerPass x l).2 (by rw [innerPass_length]; simpa using hl)

theorem exchangeSort_perm (l : List ScheduleEvent) : List.Perm (exchangeSort l) l :=
  exchangeSortAux_perm l.length l

theorem exchangeSort_sorted (l : List ScheduleEvent) :
    (exchangeSort l).Pairwise (fun a b => strLe a.date b.date = true) :=
  exchangeSortAux_sorted l.length l rfl

theorem dedupEvents_sub : ∀ (l : List ScheduleEvent) (seen : List String)
    (e : ScheduleEvent), e ∈ dedupEvents l seen → e ∈ l := by
  intro l
  induction l with
  | nil => intro seen e h; cases h
  | cons a l ih =>
    intro seen e h
    by_cases ha : eventKey a ∈ seen
    · simp only [dedupEvents, if_pos ha] at h
      exact List.mem_cons_of_mem a (ih _ e h)
    · simp only [dedupEvents, if_neg ha, List.mem_cons] at h
      rcases h with rfl | h
      · exact List.mem_cons_self _ _
      · exact List.mem_cons_of_mem a (ih _ e h)

theorem dedupEvents_keys : ∀ (l : List ScheduleEvent) (seen : List String),
    ((dedupEvents l seen).map eventKey).Nodup ∧
    ∀ k ∈ (dedupEvents l seen).map eventKey, k ∉ seen := by
  intro l
  induction l with
  | nil => intro seen; exact ⟨List.nodup_nil, by simp [dedupEvents]⟩
  | cons a l ih =>
    intro seen
    by_cases ha : eventKey a ∈ seen
    · simpa only [dedupEvents, if_pos ha] using ih seen
    · obtain ⟨ihn, ihs⟩ := ih (eventKey a :: seen)
      simp only [dedupEvents, if_neg ha, List.map_cons]
      refine ⟨List.nodup_cons.mpr ⟨?_, ihn⟩, ?_⟩
      · intro hmem
        exact (ihs _ hmem) (List.mem_cons_self _ _)
      · intro k hk
        rcases List.mem_cons.mp hk with rfl | hk'
        · exact ha
        · intro hks
          exact (ihs k hk') (List.mem_cons_of_mem _ hks)

theorem strInsert_perm (a : String) :
    ∀ l : List String, List.Perm (strInsert a l) (a :: l) := by
  intro l
  induction l with
  | nil => exact List.Perm.refl _
  | cons b l ih =>
    by_cases h : strLt a b = true
    · simp [strInsert, h]
    · simp only [strInsert, h, if_false]
      exact (ih.cons b).trans (List.Perm.swap a b l)

theorem strInsert_sorted (a : String) :
    ∀ l : List String, l.Pairwise (fun x y => strLe x y = true) →
      (strInsert a l).Pairwise (fun x y => strLe x y = true) := by
  intro l
  induction l with
  | nil => intro _; simp [strInsert]
  | cons b l ih =>
    intro hs
    obtain ⟨hb, hl⟩ := List.pairwise_cons.mp hs
    by_cases h : strLt a b = true
    · simp only [strInsert, h, if_true]
      refine List.pairwise_cons.mpr ⟨?_, hs⟩
      intro c hc
      rcases List.mem_cons.mp hc with rfl | hc'
      · exact strLe_of_lt h
      · exact strLe_trans (strLe_of_lt h) (hb c hc')
    · simp only [strInsert, h, if_false]
      refine List.pairwise_cons.mpr ⟨?_, ih hl⟩
      intro c hc
      have hc' : c ∈ a :: l := (strInsert_perm a l).mem_iff.mp hc
      rcases List.mem_cons.mp hc' with rfl | hc''
      · simpa [strLe, strLt] using h
      · exact hb c hc''

theorem strSortAux_perm : ∀ (l acc : List String),
    List.Perm (l.foldl (fun acc a => strInsert a acc) acc) (acc ++ l) := by
  intro l
  induction l with
  | nil => intro acc; simp
  | cons a l ih =>
    intro acc
    exact (ih (strInsert a acc)).trans
      (((strInsert_perm a acc).append_right l).trans List.perm_middle.symm)

theorem strSort_perm (l : List String) : List.Perm (strSort l) l := by
  simpa using strSortAux_perm l []

theorem strSort_sorted (l : List String) :
    (strSort l).Pairwise (fun x y => strLe x y = true) := by
  have main : ∀ (l acc : List String),
      acc.Pairwise (fun x y => strLe x y = true) →
      (l.foldl (fun acc a => strInsert a acc) acc).Pairwise
        (fun x y => strLe x y = true) := by
    intro l
    induction l with
    | nil => intro acc h; simpa using h
    | cons a l ih => intro acc h; exact ih _ (strInsert_sorted a acc h)
  exact main l [] List.Pairwise.nil

/-- Two date-sorted permutations of the same string list are equal. -/
theorem sorted_strings_eq {l₁ l₂ : List String} (p : List.Perm l₁ l₂)
    (s₁ : l₁.Pairwise (fun x y => strLe x y = true))
    (s₂ : l₂.Pairwise (fun x y => strLe x y = true)) : l₁ = l₂ :=
  @List.eq_of_perm_of_sorted String (fun x y => strLe x y = true)
    ⟨fun _ _ h1 h2 => strLe_antisymm h1 h2⟩ l₁ l₂ p s₁ s₂

/-! ## Claim theorems: C1 -/

/-- C1 (corrected): `mergeEvents` deduplicates by first occurrence of
`date + "-" + name`, caps the result at 30, sorts ascending by date, and
keeps exactly the 30 earliest dates; but because its exchange sort is
not stable, the result can differ from the reference
(dedup-then-stable-sort-then-truncate) in the relative order of
equal-date events (`c1_counterexample`).  Conjuncts: length ≤ 30,
date-sorted, pairwise-distinct keys, the surviving dates are the first
30 of the sorted deduplicated dates, and every survivor is one of the
first-occurrence representatives of A ++ B. -/
theorem c1_merge_properties (neis sheet : List ScheduleEvent) :
    (mergeEvents neis sheet).length ≤ 30 ∧
    dateSorted (mergeEvents neis sheet) ∧
    ((mergeEvents neis sheet).map eventKey).Nodup ∧
    (mergeEvents neis sheet).map (fun e => e.date) =
      (strSort ((dedupEvents (neis ++ sheet) []).map (fun e => e.date))).take 30 ∧
    ∀ e ∈ mergeEvents neis sheet, e ∈ dedupEvents (neis ++ sheet) [] := by
  set d := dedupEvents (neis ++ sheet) [] with hd
  have hperm : List.Perm (exchangeSort d) d := exchangeSort_perm d
  have hsorted := exchangeSort_sorted d
  refine ⟨?_, ?_, ?_, ?_, ?_⟩
  · simpa [mergeEvents] using List.length_take_le 30 (exchangeSort d)
  · exact List.Pairwise.sublist (List.take_sublist 30 _) hsorted
  · have hnodup : ((exchangeSort d).map eventKey).Nodup :=
      ((hperm.map eventKey).nodup_iff).mpr (dedupEvents_keys (neis ++ sheet) []).1
    have hsub : List.Sublist (((exchangeSort d).take 30).map eventKey)
        ((exchangeSort d).map eventKey) :=
      (List.take_sublist 30 _).map eventKey
    exact hnodup.sublist hsub
  · have hmapsorted : ((exchangeSort d).map (fun e => e.date)).Pairwise
        (fun x y => strLe x y = true) := by
      exact List.pairwise_map.mpr (by simpa using hsorted)
    have hmapperm : List.Perm ((exchangeSort d).map (fun e => e.date))
        (strSort (d.map (fun e => e.date))) :=
      (hperm.map _).trans (strSort_perm _).symm
    have heq : (exchangeSort d).map (fun e => e.date) =
        strSort (d.map (fun e => e.date)) :=
      sorted_strings_eq hmapperm hmapsorted (strSort_sorted _)
    calc (mergeEvents neis sheet).map (fun e => e.date)
        = ((exchangeSort d).map (fun e => e.date)).take 30 := by
          simp [mergeEvents, List.map_take, hd]
      _ = (strSort (d.map (fun e => e.date))).take 30 := by rw [heq]
  · intro e he
    have : e ∈ exchangeSort d := List.mem_of_mem_take he
    exact hperm.mem_iff.mp this

/-- C1 counterexample: with two events sharing date `"20260102"` ahead
of an earlier event, the exchange sort swaps the earlier event to the
front past both, reversing the equal-date pair relative to the stable
reference merge. -/
theorem c1_counterexample :
    mergeEvents c1TieEvents [] ≠ mergeEventsSpec c1TieEvents [] ∧
    mergeEvents c1TieEvents [] =
      [⟨"20260101", "z", ""⟩, ⟨"20260102", "y", ""⟩, ⟨"20260102", "x", ""⟩] ∧
    mergeEventsSpec c1TieEvents [] =
      [⟨"20260101", "z", ""⟩, ⟨"20260102", "x", ""⟩, ⟨"20260102", "y", ""⟩] :=
  ⟨by decide, by decide, by decide⟩

/-! ## Claim theorems: C4 -/

/-- C4 (corrected): every `Period` in a non-null timetable build result
carries exactly the integer parse (`strconv.Atoi` on the trimmed column
0) of a surviving data row — rows whose column 0 does not parse as an
integer, with bad times, or with fewer than 3 columns are skipped — but
the parse is *not* restricted to positive values, so `period ≥ 1` does
not hold (`c4_counterexample` exhibits period `0`). -/
theorem c4_period_from_parsed_row (rows : List (List String)) (t : TimetableData)
    (h : csvToTimetableData rows = some t) :
    t.periods ≠ [] ∧
    ∀ p ∈ t.periods, ∃ cols, cols ∈ rows.drop 1 ∧
      3 ≤ cols.length ∧
      goAtoi (strTrim (cols.headD "")) = some p.period ∧
      matchesTimeRe (strTrim (cols.getD 1 "")) = true ∧
      matchesTimeRe (strTrim (cols.getD 2 "")) = true ∧
      p.start = padTime (strTrim (cols.getD 1 "")) ∧
      p.endT = padTime (strTrim (cols.getD 2 "")) := by
  unfold csvToTimetableData at h
  by_cases hlen : rows.length < 2
  · rw [if_pos hlen] at h; cases h
  · simp only [if_neg hlen] at h
    by_cases hemp : ((rows.drop 1).filterMap parseTimetableRow).map Prod.fst = []
    · rw [if_pos hemp] at h; cases h
    · rw [if_neg hemp] at h
      cases h
      refine ⟨hemp, ?_⟩
      intro p hp
      obtain ⟨pr, hpr, rfl⟩ := List.mem_map.mp hp
      obtain ⟨cols, hcols, hparse⟩ := List.mem_filterMap.mp hpr
      refine ⟨cols, hcols, ?_⟩
      unfold parseTimetableRow at hparse
      by_cases h3 : cols.length < 3
      · rw [if_pos h3] at hparse; cases hparse
      · rw [if_neg h3] at hparse
        rcases hg : goAtoi (strTrim (cols.headD "")) with _ | pn <;>
          rw [hg] at hparse <;> simp only [] at hparse
        · cases hparse
        · by_cases hre : matchesTimeRe (strTrim (cols.getD 1 "")) = true ∧
              matchesTimeRe (strTrim (cols.getD 2 "")) = true
          · rw [if_pos hre] at hparse
            cases hparse
            exact ⟨by omega, rfl, hre.1, hre.2, rfl, rfl⟩
          · rw [if_neg hre] at hparse; cases hparse

/-- Witness for C4 at the concrete rows of `c4Rows`. -/
theorem c4_period_from_parsed_row_witness :
    ((⟨[⟨0, "09:00", "09:40"⟩], [["수학", "", "", "", ""]]⟩ :
        TimetableData)).periods ≠ [] ∧
    ∀ p ∈ ((⟨[⟨0, "09:00", "09:40"⟩], [["수학", "", "", "", ""]]⟩ :
        TimetableData)).periods, ∃ cols, cols ∈ c4Rows.drop 1 ∧
      3 ≤ cols.length ∧
      goAtoi (strTrim (cols.headD "")) = some p.period ∧
      matchesTimeRe (strTrim (cols.getD 1 "")) = true ∧
      matchesTimeRe (strTrim (cols.getD 2 "")) = true ∧
      p.start = padTime (strTrim (cols.getD 1 "")) ∧
      p.endT = padTime (strTrim (cols.getD 2 "")) :=
  c4_period_from_parsed_row c4Rows
    ⟨[⟨0, "09:00", "09:40"⟩], [["수학", "", "", "", ""]]⟩ (by decide)

/-- C4 counterexample: the data row `["0","9:00","9:40","수학"]`
survives (`strconv.Atoi` accepts `"0"`), so the non-null result contains
a `Period` with `period = 0 < 1`. -/
theorem c4_counterexample :
    csvToTimetableData c4Rows =
      some ⟨[⟨0, "09:00", "09:40"⟩], [["수학", "", "", "", ""]]⟩ ∧
    ¬∀ t ∈ (csvToTimetableData c4Rows).toList, ∀ p ∈ t.periods, 1 ≤ p.period :=
  ⟨by decide, by decide⟩

/-! ## Lemmas about the study-plan builder -/

theorem intoLast_length (cells : List String) :
    ∀ l : List (String × List String), (intoLast cells l).length = l.length := by
  intro l
  induction l with
  | nil => rfl
  | cons p ps ih =>
    cases ps with
    | nil => rfl
    | cons q qs => simpa [intoLast] using ih

/-- The number of period rows collected equals the number of rows whose
column 0 is non-empty: continuation rows never become new rows. -/
theorem collectPeriods_length (numCols : Nat) :
    ∀ (l : List (List String)) (acc : List (String × List String)),
      (collectPeriods numCols l acc).length =
        acc.length + l.countP (fun r => decide (strTrim (r.headD "") ≠ "")) := by
  intro l
  induction l with
  | nil => intro acc; simp [collectPeriods]
  | cons row rest ih =>
    intro acc
    by_cases hcol : strTrim (row.headD "") ≠ ""
    · have hcol2 : ¬strTrim (row.head?.getD "") = "" := by simpa using hcol
      have hP : (if decide (strTrim (row.headD "") ≠ "") = true then 1 else 0) = 1 := by
        simp [hcol2]
      simp only [collectPeriods, if_pos hcol]
      rw [ih, List.countP_cons, hP]
      simp only [List.length_append, List.length_cons, List.length_nil]
      omega
    · have hcol2 : strTrim (row.head?.getD "") = "" := by simpa using hcol
      have hP : (if decide (strTrim (row.headD "") ≠ "") = true then 1 else 0) = 0 := by
        simp [hcol2]
      simp only [collectPeriods, if_neg hcol]
      cases acc with
      | nil =>
        rw [ih, List.countP_cons, hP]
        simp
      | cons a as =>
        rw [ih, List.countP_cons, hP, intoLast_length]
        simp

/-! ## Claim theorems: C7 -/

/-- C7: in `parseStudyPlanBlock`, a continuation row (empty column 0)
never becomes an output row — the number of output rows equals the
number of period-label rows after the header — and on the spec's
example block the continuation's cells are newline-joined into the
previous period row. -/
theorem c7_continuation_rows (title : String) (rows : List (List String))
    (b : StudyPlanBlock) (k : Nat)
    (hparse : parseStudyPlanBlock title rows = some b)
    (hidx : List.findIdx? isHeaderRow rows = some k) :
    b.rows.length =
      (rows.drop (k + 1)).countP (fun r => decide (strTrim (r.headD "") ≠ "")) ∧
    parseStudyPlanBlock "T" c7Rows =
      some ⟨"T", ["월", "화"], [["1교시", "a\nx", "b"]]⟩ := by
  refine ⟨?_, by decide⟩
  unfold parseStudyPlanBlock at hparse
  by_cases hlen : rows.length < 2
  · rw [if_pos hlen] at hparse; cases hparse
  · rw [if_neg hlen, hidx] at hparse
    simp only [] at hparse
    by_cases hh : ((rows.getD k []).drop 1).filterMap (fun c =>
        if strTrim c ≠ "" then some (strTrim c) else none) = []
    · rw [if_pos hh] at hparse; cases hparse
    · rw [if_neg hh] at hparse
      by_cases hp : collectPeriods (((rows.getD k []).drop 1).filterMap (fun c =>
          if strTrim c ≠ "" then some (strTrim c) else none)).length
          (rows.drop (k + 1)) [] = []
      · rw [if_pos hp] at hparse; cases hparse
      · rw [if_neg hp] at hparse
        cases hparse
        simp only [List.length_map]
        simpa using collectPeriods_length _ (rows.drop (k + 1)) []

/-- Witness for C7 at the concrete block of `c7Rows`. -/
theorem c7_continuation_rows_witness :
    ((⟨"T", ["월", "화"], [["1교시", "a\nx", "b"]]⟩ : StudyPlanBlock)).rows.length =
      (c7Rows.drop (0 + 1)).countP (fun r => decide (strTrim (r.headD "") ≠ "")) ∧
    parseStudyPlanBlock "T" c7Rows =
      some ⟨"T", ["월", "화"], [["1교시", "a\nx", "b"]]⟩ :=
  c7_continuation_rows "T" c7Rows ⟨"T", ["월", "화"], [["1교시", "a\nx", "b"]]⟩ 0
    (by decide) (by decide)

/-! ## Lemmas about `csvToStudyPlan` -/

/-- A parsed block keeps the raw block's title verbatim. -/
theorem parseStudyPlanBlock_title (title : String) (rows : List (List String))
    (b : StudyPlanBlock) (h : parseStudyPlanBlock title rows = some b) :
    b.title = title := by
  unfold parseStudyPlanBlock at h
  by_cases hlen : rows.length < 2
  · rw [if_pos hlen] at h; cases h
  · rw [if_neg hlen] at h
    rcases hidx : List.findIdx? isHeaderRow rows with _ | k <;> rw [hidx] at h <;>
      simp only [] at h
    · cases h
    · by_cases hh : ((rows.getD k []).drop 1).filterMap (fun c =>
          if strTrim c ≠ "" then some (strTrim c) else none) = []
      · rw [if_pos hh] at h; cases h
      · rw [if_neg hh] at h
        by_cases hp : collectPeriods (((rows.getD k []).drop 1).filterMap (fun c =>
            if strTrim c ≠ "" then some (strTrim c) else none)).length
            (rows.drop (k + 1)) [] = []
        · rw [if_pos hp] at h; cases h
        · rw [if_neg hp] at h; cases h; rfl

/-- Blocks coming out of `splitRawIn` carry the date range extracted
from their own title. -/
theorem splitRawIn_range (title : String) :
    ∀ (l : List (List String)) (acc : List (List String)) (rb : RawBlock),
      rb ∈ splitRawIn title acc l →
      rb.startDate = (extractDateRange rb.title).1 ∧
      rb.endDate = (extractDateRange rb.title).2 := by
  intro l
  induction l generalizing title with
  | nil =>
    intro acc rb hrb
    simp only [splitRawIn, List.mem_singleton] at hrb
    subst hrb
    exact ⟨rfl, rfl⟩
  | cons r rest ih =>
    intro acc rb hrb
    simp only [splitRawIn] at hrb
    by_cases hr : r = []
    · rw [if_pos hr] at hrb
      exact ih title acc rb hrb
    · rw [if_neg hr] at hrb
      by_cases ht : isTitleRow r = true
      · rw [if_pos ht] at hrb
        rcases List.mem_cons.mp hrb with rfl | hrb'
        · exact ⟨rfl, rfl⟩
        · exact ih _ [] rb hrb'
      · rw [if_neg ht] at hrb
        exact ih title (acc ++ [r]) rb hrb

/-- Blocks coming out of `splitRaw` carry the date range extracted from
their own title. -/
theorem splitRaw_range : ∀ (rows : List (List String)) (rb : RawBlock),
    rb ∈ splitRaw rows →
    rb.startDate = (extractDateRange rb.title).1 ∧
    rb.endDate = (extractDateRange rb.title).2 := by
  intro rows
  induction rows with
  | nil => intro rb hrb; cases hrb
  | cons r rest ih =>
    intro rb hrb
    simp only [splitRaw] at hrb
    by_cases ht : isTitleRow r = true
    · rw [if_pos ht] at hrb
      exact splitRawIn_range _ rest [] rb hrb
    · rw [if_neg ht] at hrb
      exact ih rb hrb

/-- The blocks accumulated by `buildBlocksAux` are the accumulator
followed by the successfully parsed blocks, in order. -/
theorem buildBlocksAux_fst (todayStr : String) :
    ∀ (rbs : List RawBlock) (blocks : List StudyPlanBlock) (ci : Int),
      (buildBlocksAux todayStr rbs blocks ci).1 =
        blocks ++ rbs.filterMap (fun rb => parseStudyPlanBlock rb.title rb.rows) := by
  intro rbs
  induction rbs with
  | nil => intro blocks ci; simp [buildBlocksAux]
  | cons rb rest ih =>
    intro blocks ci
    simp only [buildBlocksAux, List.filterMap_cons]
    rcases hp : parseStudyPlanBlock rb.title rb.rows with _ | b
    · exact ih blocks ci
    · rw [ih]
      simp

/-- After the first match is recorded (`ci ≥ 0`), `buildBlocksAux`
never changes the index again. -/
theorem buildBlocksAux_snd_frozen (todayStr : String) :
    ∀ (rbs : List RawBlock) (blocks : List StudyPlanBlock) (ci : Int),
      0 ≤ ci → (buildBlocksAux todayStr rbs blocks ci).2 = ci := by
  intro rbs
  induction rbs with
  | nil => intro blocks ci _; rfl
  | cons rb rest ih =>
    intro blocks ci hci
    simp only [buildBlocksAux]
    rcases hp : parseStudyPlanBlock rb.title rb.rows with _ | b
    · exact ih blocks ci hci
    · have hcond : ¬(ci < 0 ∧ rb.startDate ≠ "" ∧ rb.endDate ≠ "" ∧
          strLe rb.startDate todayStr = true ∧ strLe todayStr rb.endDate = true) := by
        intro hc; omega
      rw [if_neg hcond]
      exact ih _ ci hci

/-- While no match has been recorded (`ci < 0`), the final index is the
accumulator-offset position of the first parsed block whose stored date
range contains today, and the incoming `ci` if none matches. -/
theorem buildBlocksAux_snd (todayStr : String) :
    ∀ (rbs : List RawBlock) (blocks : List StudyPlanBlock) (ci : Int),
      ci < 0 →
      (∀ rb ∈ rbs, rb.startDate = (extractDateRange rb.title).1 ∧
        rb.endDate = (extractDateRange rb.title).2) →
      (buildBlocksAux todayStr rbs blocks ci).2 =
        (List.findIdx? (blockMatches todayStr)
            (rbs.filterMap (fun rb => parseStudyPlanBlock rb.title rb.rows))).elim
          ci (fun i => (blocks.length : Int) + i) := by
  intro rbs
  induction rbs with
  | nil => intro blocks ci _ _; rfl
  | cons rb rest ih =>
    intro blocks ci hci hinv
    obtain ⟨hs, he⟩ := hinv rb (by simp)
    have hinv' : ∀ x ∈ rest, x.startDate = (extractDateRange x.title).1 ∧
        x.endDate = (extractDateRange x.title).2 :=
      fun x hx => hinv x (by simp [hx])
    simp only [buildBlocksAux, List.filterMap_cons]
    rcases hp : parseStudyPlanBlock rb.title rb.rows with _ | b
    · exact ih blocks ci hci hinv'
    · have htitle : b.title = rb.title := parseStudyPlanBlock_title _ _ _ hp
      have hmatch : blockMatches todayStr b =
          (rb.startDate ≠ "" ∧ rb.endDate ≠ "" ∧
            strLe rb.startDate todayStr = true ∧
            strLe todayStr rb.endDate = true : Bool) := by
        simp only [blockMatches, htitle, ← hs, ← he]
        by_cases h1 : rb.startDate = "" <;>
          by_cases h2 : rb.endDate = "" <;>
            simp [h1, h2, Bool.and_assoc]
      by_cases hc : rb.startDate ≠ "" ∧ rb.endDate ≠ "" ∧
          strLe rb.startDate todayStr = true ∧ strLe todayStr rb.endDate = true
      · have hcond : ci < 0 ∧ rb.startDate ≠ "" ∧ rb.endDate ≠ "" ∧
            strLe rb.startDate todayStr = true ∧ strLe todayStr rb.endDate = true :=
          ⟨hci, hc⟩
        rw [if_pos hcond]
        rw [buildBlocksAux_snd_frozen todayStr rest _ _ (by positivity)]
        have hb : blockMatches todayStr b = true := by
          rw [hmatch]; simpa using hc
        rw [List.findIdx?_cons, if_pos hb]
        simp
      · have hcond : ¬(ci < 0 ∧ rb.startDate ≠ "" ∧ rb.endDate ≠ "" ∧
            strLe rb.startDate todayStr = true ∧ strLe todayStr rb.endDate = true) := by
          intro hcc; exact hc hcc.2
        rw [if_neg hcond]
        have hb : blockMatches todayStr b = false := by
          rw [hmatch]; simpa using hc
        rw [ih _ ci hci hinv', List.findIdx?_cons, if_neg (by simp [hb]),
          List.findIdx?_succ]
        cases hfi : List.findIdx? (blockMatches todayStr)
            (rest.filterMap fun rb => parseStudyPlanBlock rb.title rb.rows) with
        | none => rfl
        | some i =>
          simp only [Option.map, Option.elim, List.length_append, List.length_cons,
            List.length_nil]
          push_cast
          omega

/-! ## Claim theorems: C5 -/

/-- C5: when `csvToStudyPlan` returns a result, its blocks are the
successfully parsed blocks (hence non-empty) and `currentIndex` is the
index of the first block whose title's date range contains today, or the
last block's index when none matches; and when zero valid blocks are
produced the builder returns null. -/
theorem c5_current_index (todayStr : String) (rows : List (List String))
    (r : StudyPlanResult) (h : csvToStudyPlan todayStr rows = some r) :
    r.blocks ≠ [] ∧
    r.blocks = (splitRaw rows).filterMap
      (fun rb => parseStudyPlanBlock rb.title rb.rows) ∧
    r.currentIndex = (List.findIdx? (blockMatches todayStr) r.blocks).elim
      ((r.blocks.length : Int) - 1) (fun i => (i : Int)) ∧
    ∀ rows' : List (List String),
      (splitRaw rows').filterMap
        (fun rb => parseStudyPlanBlock rb.title rb.rows) = [] →
      csvToStudyPlan todayStr rows' = none := by
  have hnull : ∀ rows' : List (List String),
      (splitRaw rows').filterMap
        (fun rb => parseStudyPlanBlock rb.title rb.rows) = [] →
      csvToStudyPlan todayStr rows' = none := by
    intro rows' hz
    unfold csvToStudyPlan
    by_cases hlen : rows'.length < 3
    · rw [if_pos hlen]
    · rw [if_neg hlen]
      rcases hsplit : splitRaw rows' with _ | ⟨rb, rbs⟩
      · rfl
      · rw [hsplit] at hz
        have h1 := buildBlocksAux_fst todayStr (rb :: rbs) [] (-1)
        rcases hbb : buildBlocksAux todayStr (rb :: rbs) [] (-1) with ⟨bs, ci⟩
        rw [hbb] at h1
        simp only [List.nil_append] at h1
        rw [hz] at h1
        subst h1
        simp only []
        rw [hbb]
  unfold csvToStudyPlan at h
  by_cases hlen : rows.length < 3
  · rw [if_pos hlen] at h; cases h
  · rw [if_neg hlen] at h
    rcases hsplit : splitRaw rows with _ | ⟨rb0, rbs0⟩ <;> rw [hsplit] at h
    · cases h
    · simp only [] at h
      have hfst := buildBlocksAux_fst todayStr (rb0 :: rbs0) [] (-1)
      rcases hbb : buildBlocksAux todayStr (rb0 :: rbs0) [] (-1) with ⟨bs, ci⟩
      rw [hbb] at hfst h
      simp only [List.nil_append] at hfst
      cases bs with
      | nil => simp only [] at h; cases h
      | cons b0 bs0 =>
        simp only [] at h
        cases h
        have hsnd := buildBlocksAux_snd todayStr (rb0 :: rbs0) [] (-1) (by omega)
          (fun rb hrb => splitRaw_range rows rb (by rw [hsplit]; exact hrb))
        rw [hbb] at hsnd
        rw [← hfst] at hsnd
        simp only [List.length_nil, Nat.cast_zero, zero_add] at hsnd
        refine ⟨by simp, hfst, ?_, hnull⟩
        show (if ci < 0 then ((b0 :: bs0).length : Int) - 1 else ci) = _
        rcases hidx : List.findIdx? (blockMatches todayStr) (b0 :: bs0) with _ | i <;>
          rw [hidx] at hsnd
        · simp only [Option.elim] at hsnd ⊢
          rw [if_pos (by omega)]
        · simp only [Option.elim] at hsnd ⊢
          rw [if_neg (by omega)]
          exact hsnd

/-- Witness for C5 at the concrete study-plan sheet `c5Rows` with today
= 2026-03-05 (inside the title's range, so `currentIndex = 0`). -/
theorem c5_current_index_witness :
    csvToStudyPlan "20260305" c5Rows =
      some ⟨[⟨"1주차 (2026.03.01.~2026.03.08.)", ["월", "화"], [["1", "국어", "수학"]]⟩], 0⟩ ∧
    ((⟨[⟨"1주차 (2026.03.01.~2026.03.08.)", ["월", "화"], [["1", "국어", "수학"]]⟩], 0⟩ :
        StudyPlanResult)).blocks ≠ [] ∧
    ((⟨[⟨"1주차 (2026.03.01.~2026.03.08.)", ["월", "화"], [["1", "국어", "수학"]]⟩], 0⟩ :
        StudyPlanResult)).blocks = (splitRaw c5Rows).filterMap
      (fun rb => parseStudyPlanBlock rb.title rb.rows) ∧
    ((⟨[⟨"1주차 (2026.03.01.~2026.03.08.)", ["월", "화"], [["1", "국어", "수학"]]⟩], 0⟩ :
        StudyPlanResult)).currentIndex =
      (List.findIdx? (blockMatches "20260305")
          ((⟨[⟨"1주차 (2026.03.01.~2026.03.08.)", ["월", "화"], [["1", "국어", "수학"]]⟩], 0⟩ :
            StudyPlanResult)).blocks).elim
        ((((⟨[⟨"1주차 (2026.03.01.~2026.03.08.)", ["월", "화"], [["1", "국어", "수학"]]⟩], 0⟩ :
            StudyPlanResult)).blocks.length : Int) - 1) (fun i => (i : Int)) ∧
    ∀ rows' : List (List String),
      (splitRaw rows').filterMap
        (fun rb => parseStudyPlanBlock rb.title rb.rows) = [] →
      csvToStudyPlan "20260305" rows' = none :=
  ⟨by decide,
    c5_current_index "20260305" c5Rows
      ⟨[⟨"1주차 (2026.03.01.~2026.03.08.)", ["월", "화"], [["1", "국어", "수학"]]⟩], 0⟩
      (by decide)⟩

/-! ## Lemmas about the date normalizer -/

theorem takeDigitsN_spec : ∀ (n : Nat) (cs ds rest : List Char),
    takeDigitsN n cs = some (ds, rest) →
    ds.length = n ∧ ds.all Char.isDigit = true := by
  intro n
  induction n with
  | zero =>
    intro cs ds rest h
    simp only [takeDigitsN] at h
    cases h
    simp
  | succ n ih =>
    intro cs ds rest h
    cases cs with
    | nil => cases h
    | cons c cs' =>
      simp only [takeDigitsN] at h
      by_cases hc : c.isDigit = true
      · rw [if_pos hc] at h
        rcases ht : takeDigitsN n cs' with _ | ⟨ds0, r0⟩ <;> rw [ht] at h
        · cases h
        · cases h
          obtain ⟨h1, h2⟩ := ih cs' ds0 _ ht
          simp [h1, h2, hc]
      · rw [if_neg hc] at h; cases h

theorem take2or1_spec (cs ds rest : List Char) (h : take2or1 cs = some (ds, rest)) :
    (ds.length = 1 ∨ ds.length = 2) ∧ ds.all Char.isDigit = true := by
  unfold take2or1 at h
  rcases h2 : takeDigitsN 2 cs with _ | ⟨ds2, r2⟩ <;> rw [h2] at h <;> (try simp only [] at h)
  · obtain ⟨h1, hd⟩ := takeDigitsN_spec 1 cs ds rest h
    exact ⟨Or.inl h1, hd⟩
  · cases h
    obtain ⟨h1, hd⟩ := takeDigitsN_spec 2 cs ds rest h2
    exact ⟨Or.inr h1, hd⟩

theorem take2or1Sep_spec (cs ds rest : List Char)
    (h : take2or1Sep cs = some (ds, rest)) :
    (ds.length = 1 ∨ ds.length = 2) ∧ ds.all Char.isDigit = true := by
  unfold take2or1Sep at h
  rcases h2 : takeDigitsN 2 cs with _ | ⟨ds2, r2⟩ <;> rw [h2] at h <;> (try simp only [] at h)
  · rcases h1 : takeDigitsN 1 cs with _ | ⟨ds1, r1⟩ <;> rw [h1] at h <;> (try simp only [] at h)
    · cases h
    · rcases hs : sepSkip r1 with _ | r2' <;> rw [hs] at h <;> (try simp only [] at h)
      · cases h
      · cases h
        obtain ⟨hl, hd⟩ := takeDigitsN_spec 1 cs ds r1 h1
        exact ⟨Or.inl hl, hd⟩
  · rcases hs : sepSkip r2 with _ | r2' <;> rw [hs] at h <;> (try simp only [] at h)
    · rcases h1 : takeDigitsN 1 cs with _ | ⟨ds1, r1⟩ <;> rw [h1] at h <;> (try simp only [] at h)
      · cases h
      · rcases hs1 : sepSkip r1 with _ | r3 <;> rw [hs1] at h <;> (try simp only [] at h)
        · cases h
        · cases h
          obtain ⟨hl, hd⟩ := takeDigitsN_spec 1 cs ds r1 h1
          exact ⟨Or.inl hl, hd⟩
    · cases h
      obtain ⟨hl, hd⟩ := takeDigitsN_spec 2 cs ds r2 h2
      exact ⟨Or.inr hl, hd⟩

theorem pad2_spec (s : String) (h1 : s.length = 1 ∨ s.length = 2)
    (hd : s.data.all Char.isDigit = true) :
    (pad2 s).length = 2 ∧ (pad2 s).data.all Char.isDigit = true := by
  unfold pad2
  rcases h1 with h1 | h1
  · rw [if_pos h1]
    constructor
    · show ("0" ++ s).length = 2
      rw [String.length_append, h1]
      decide
    · show (("0" ++ s)).data.all Char.isDigit = true
      rw [String.data_append]
      simp only [List.all_append, hd]
      simp
  · rw [if_neg (by omega)]
    exact ⟨h1, hd⟩

theorem datePat1_spec (cs : List Char) (y m d : String)
    (h : datePat1 cs = some (y, m, d)) :
    y.length = 4 ∧ y.data.all Char.isDigit = true ∧
    (m.length = 1 ∨ m.length = 2) ∧ m.data.all Char.isDigit = true ∧
    (d.length = 1 ∨ d.length = 2) ∧ d.data.all Char.isDigit = true := by
  unfold datePat1 at h
  rcases h4 : takeDigitsN 4 cs with _ | ⟨y0, r1⟩ <;> rw [h4] at h <;> (try simp only [] at h)
  · cases h
  · rcases hs : sepSkip r1 with _ | r2 <;> rw [hs] at h <;> (try simp only [] at h)
    · cases h
    · rcases hm : take2or1Sep r2 with _ | ⟨m0, r3⟩ <;> rw [hm] at h <;> (try simp only [] at h)
      · cases h
      · rcases hd : take2or1 r3 with _ | ⟨d0, r4⟩ <;> rw [hd] at h <;> (try simp only [] at h)
        · cases h
        · cases h
          obtain ⟨hy1, hy2⟩ := takeDigitsN_spec 4 cs y0 r1 h4
          obtain ⟨hm1, hm2⟩ := take2or1Sep_spec r2 m0 r3 hm
          obtain ⟨hd1, hd2⟩ := take2or1_spec r3 d0 r4 hd
          exact ⟨hy1, hy2, hm1, hm2, hd1, hd2⟩

theorem datePat3_spec (cs : List Char) (m d y : String)
    (h : datePat3 cs = some (m, d, y)) :
    y.length = 4 ∧ y.data.all Char.isDigit = true ∧
    (m.length = 1 ∨ m.length = 2) ∧ m.data.all Char.isDigit = true ∧
    (d.length = 1 ∨ d.length = 2) ∧ d.data.all Char.isDigit = true := by
  unfold datePat3 at h
  rcases hm : take2or1 cs with _ | ⟨m0, r1⟩ <;> rw [hm] at h <;> (try simp only [] at h)
  · cases h
  · rcases hs1 : expectSlash r1 with _ | r2 <;> rw [hs1] at h <;> (try simp only [] at h)
    · cases h
    · rcases hd : take2or1 r2 with _ | ⟨d0, r3⟩ <;> rw [hd] at h <;> (try simp only [] at h)
      · cases h
      · rcases hs2 : expectSlash r3 with _ | r4 <;> rw [hs2] at h <;> (try simp only [] at h)
        · cases h
        · rcases hy : takeDigitsN 4 r4 with _ | ⟨y0, r5⟩ <;> rw [hy] at h <;> (try simp only [] at h)
          · cases h
          · rcases r5 with _ | ⟨c3, r6⟩
            · cases h
              obtain ⟨hy1, hy2⟩ := takeDigitsN_spec 4 r4 y0 [] hy
              obtain ⟨hm1, hm2⟩ := take2or1_spec cs m0 r1 hm
              obtain ⟨hd1, hd2⟩ := take2or1_spec r2 d0 r3 hd
              exact ⟨hy1, hy2, hm1, hm2, hd1, hd2⟩
            · cases h

theorem datePat2_spec (cs : List Char) (s : String) (h : datePat2 cs = some s) :
    s.length = 8 ∧ s.data.all Char.isDigit = true := by
  unfold datePat2 at h
  split_ifs at h with hc
  cases h
  exact ⟨hc.1, hc.2⟩

/-- A successful normalization always yields eight digits. -/
theorem parseDate_output_shape (r : String) (hr : parseDateToYYYYMMDD r ≠ "") :
    (parseDateToYYYYMMDD r).length = 8 ∧
    (parseDateToYYYYMMDD r).data.all Char.isDigit = true := by
  unfold parseDateToYYYYMMDD at hr ⊢
  simp only [] at hr ⊢
  rcases hp1 : datePat1 (trimChars r.data) with _ | ⟨y, m, d⟩ <;>
    rw [hp1] at hr <;> (try simp only [] at hr ⊢)
  · rcases hp2 : datePat2 (trimChars r.data) with _ | s2 <;>
      rw [hp2] at hr <;> (try simp only [] at hr ⊢)
    · rcases hp3 : datePat3 (trimChars r.data) with _ | ⟨m, d, y⟩ <;>
        rw [hp3] at hr <;> (try simp only [] at hr ⊢)
      · exact absurd rfl hr
      · obtain ⟨hy1, hy2, hm1, hm2, hd1, hd2⟩ := datePat3_spec _ _ _ _ hp3
        obtain ⟨hpm1, hpm2⟩ := pad2_spec m hm1 hm2
        obtain ⟨hpd1, hpd2⟩ := pad2_spec d hd1 hd2
        constructor
        · rw [String.length_append, String.length_append, hy1, hpm1, hpd1]
        · rw [String.data_append, String.data_append]
          simp [hy2, hpm2, hpd2]
    · exact datePat2_spec _ _ hp2
  · obtain ⟨hy1, hy2, hm1, hm2, hd1, hd2⟩ := datePat1_spec _ _ _ _ hp1
    obtain ⟨hpm1, hpm2⟩ := pad2_spec m hm1 hm2
    obtain ⟨hpd1, hpd2⟩ := pad2_spec d hd1 hd2
    constructor
    · rw [String.length_append, String.length_append, hy1, hpm1, hpd1]
    · rw [String.data_append, String.data_append]
      simp [hy2, hpm2, hpd2]

/-! ## Claim theorems: C8 -/

/-- C8 (corrected): the date normalizer returns its failure value for
empty/whitespace-only input and for every input matched by none of the
three patterns, and every success is an eight-digit string — but the
two separators of pattern 1 are drawn *independently* from `[-./]`
(mixed classes accepted) and pattern 1 is a prefix match (trailing text
accepted), so those two input families do not yield null
(`c8_counterexample`).  The spec's own examples are also checked. -/
theorem c8_normalizer_nulls (s r : String)
    (hs : strTrim s = "") (hr : parseDateToYYYYMMDD r ≠ "") :
    parseDateToYYYYMMDD s = "" ∧
    (parseDateToYYYYMMDD r).length = 8 ∧
    (parseDateToYYYYMMDD r).data.all Char.isDigit = true ∧
    parseDateToYYYYMMDD "2026-3-5" = "20260305" ∧
    parseDateToYYYYMMDD "20260315" = "20260315" ∧
    parseDateToYYYYMMDD "not a date" = "" := by
  obtain ⟨h1, h2⟩ := parseDate_output_shape r hr
  have h0 : trimChars s.data = [] := congrArg String.data hs
  refine ⟨?_, h1, h2, by decide, by decide, by decide⟩
  unfold parseDateToYYYYMMDD
  simp only []
  rw [h0]
  rfl

/-- Witness for C8 at whitespace-only and `"2026-3-5"` inputs. -/
theorem c8_normalizer_nulls_witness :
    parseDateToYYYYMMDD "  " = "" ∧
    (parseDateToYYYYMMDD "2026-3-5").length = 8 ∧
    (parseDateToYYYYMMDD "2026-3-5").data.all Char.isDigit = true ∧
    parseDateToYYYYMMDD "2026-3-5" = "20260305" ∧
    parseDateToYYYYMMDD "20260315" = "20260315" ∧
    parseDateToYYYYMMDD "not a date" = "" :=
  c8_normalizer_nulls "  " "2026-3-5" (by decide) (by decide)

/-- C8 counterexample: a mixed-separator date and a date with trailing
text both normalize successfully instead of yielding null. -/
theorem c8_counterexample :
    parseDateToYYYYMMDD "2026-03.05" = "20260305" ∧
    parseDateToYYYYMMDD "2026-03-05 and more" = "20260305" ∧
    parseDateToYYYYMMDD "2026-03.05" ≠ "" ∧
    parseDateToYYYYMMDD "2026-03-05 and more" ≠ "" :=
  ⟨by decide, by decide, by decide, by decide⟩

/-! ## Lemmas about the period-status engine -/

theorem periodWF_some (p : PeriodTime) (h : periodWF p = true) :
    ∃ a b : Int, timeStrMinutes p.start = some a ∧
      timeStrMinutes p.endT = some b ∧ a < b := by
  unfold periodWF jsLtB at h
  rcases ha : timeStrMinutes p.start with _ | a <;> rw [ha] at h
  · cases h
  · rcases hb : timeStrMinutes p.endT with _ | b <;> rw [hb] at h
    · cases h
    · exact ⟨a, b, rfl, rfl, of_decide_eq_true h⟩

theorem wellFormedPeriods_all (l : List PeriodTime)
    (h : wellFormedPeriods l = true) : ∀ p ∈ l, periodWF p = true := by
  simp only [wellFormedPeriods, Bool.and_eq_true] at h
  exact fun p hp => List.all_eq_true.mp h.1 p hp

theorem wellFormedPeriods_head (p : PeriodTime) (rest : List PeriodTime)
    (h : wellFormedPeriods (p :: rest) = true) : periodWF p = true :=
  wellFormedPeriods_all _ h p (by simp)

theorem wellFormedPeriods_tail (p : PeriodTime) (rest : List PeriodTime)
    (h : wellFormedPeriods (p :: rest) = true) : wellFormedPeriods rest = true := by
  simp only [wellFormedPeriods, Bool.and_eq_true] at h ⊢
  obtain ⟨h1, h2⟩ := h
  refine ⟨?_, ?_⟩
  · simp only [List.all_cons, Bool.and_eq_true] at h1
    exact h1.2
  · cases rest with
    | nil => rfl
    | cons q rest' =>
      simp only [chainWF, Bool.and_eq_true] at h2
      exact h2.2

theorem wellFormedPeriods_chain (p q : PeriodTime) (rest : List PeriodTime)
    (h : wellFormedPeriods (p :: q :: rest) = true) :
    jsLeB (timeStrMinutes p.endT) (timeStrMinutes q.start) = true := by
  simp only [wellFormedPeriods, Bool.and_eq_true] at h
  obtain ⟨-, h2⟩ := h
  simp only [chainWF, Bool.and_eq_true] at h2
  exact h2.1

/-- Coverage of the status scan: when the current minute is at or after
the first start and strictly before the last end of a well-formed,
ordered period list, the scan finds an in-class or gap state. -/
theorem scanPeriods_isSome :
    ∀ (rest : List PeriodTime) (p : PeriodTime) (c : Int),
      wellFormedPeriods (p :: rest) = true →
      jsGeB (some c) (timeStrMinutes p.start) = true →
      jsLtB (some c) (timeStrMinutes ((p :: rest).getLast (by simp)).endT) = true →
      (scanPeriods (some c) (p :: rest)).isSome = true := by
  intro rest
  induction rest with
  | nil =>
    intro p c hwf hge hlt
    rw [List.getLast_singleton] at hlt
    simp only [scanPeriods]
    rw [if_pos ⟨hge, hlt⟩]
    rfl
  | cons q rest' ih =>
    intro p c hwf hge hlt
    obtain ⟨a, b, ha, hb, hab⟩ := periodWF_some p (wellFormedPeriods_head _ _ hwf)
    obtain ⟨aq, bq, haq, hbq, habq⟩ :=
      periodWF_some q (wellFormedPeriods_head _ _ (wellFormedPeriods_tail _ _ hwf))
    have hchain := wellFormedPeriods_chain p q rest' hwf
    rw [hb, haq] at hchain
    have hba : b ≤ aq := of_decide_eq_true hchain
    rw [List.getLast_cons (by simp)] at hlt
    by_cases hin : jsLtB (some c) (timeStrMinutes p.endT) = true
    · simp only [scanPeriods]
      rw [if_pos ⟨hge, hin⟩]
      rfl
    · have hcb : b ≤ c := by
        rw [hb] at hin
        simp only [jsLtB, decide_eq_true_eq] at hin
        omega
      have hgeend : jsGeB (some c) (timeStrMinutes p.endT) = true := by
        rw [hb]
        simp only [jsGeB, jsLeB, decide_eq_true_eq]
        omega
      by_cases hgap : jsLtB (some c) (timeStrMinutes q.start) = true
      · simp only [scanPeriods]
        rw [if_neg (fun hc => hin hc.2)]
        (try simp only [])
        rw [if_pos ⟨hgeend, hgap⟩]
        by_cases h30 : jsGeB (jsSub (timeStrMinutes q.start) (timeStrMinutes p.endT))
            (some 30) = true
        · rw [if_pos h30]; rfl
        · rw [if_neg h30]; rfl
      · have hge' : jsGeB (some c) (timeStrMinutes q.start) = true := by
          rw [haq] at hgap ⊢
          simp only [jsLtB, decide_eq_true_eq] at hgap
          simp only [jsGeB, jsLeB, decide_eq_true_eq]
          omega
        have hrec := ih q c (wellFormedPeriods_tail _ _ hwf) hge' hlt
        simp only [scanPeriods]
        rw [if_neg (fun hc => hin hc.2)]
        (try simp only [])
        rw [if_neg (fun hc => hgap hc.2)]
        exact hrec

/-- Every status produced by the scan differs from the final catch-all
(it always carries a current or next period number). -/
theorem scanPeriods_ne_fallback :
    ∀ (ps : List PeriodTime) (cm : Option Int) (st : PeriodStatus),
      scanPeriods cm ps = some st → st ≠ fallbackStatus := by
  intro ps
  induction ps with
  | nil => intro cm st h; cases h
  | cons p rest ih =>
    intro cm st h
    simp only [scanPeriods] at h
    by_cases h1 : jsGeB cm (timeStrMinutes p.start) = true ∧
        jsLtB cm (timeStrMinutes p.endT) = true
    · rw [if_pos h1] at h
      cases h
      simp [fallbackStatus]
    · rw [if_neg h1] at h
      cases rest with
      | nil => cases h
      | cons q rest' =>
        simp only [] at h
        by_cases h2 : jsGeB cm (timeStrMinutes p.endT) = true ∧
            jsLtB cm (timeStrMinutes q.start) = true
        · rw [if_pos h2] at h
          by_cases h3 : jsGeB (jsSub (timeStrMinutes q.start) (timeStrMinutes p.endT))
              (some 30) = true
          · rw [if_pos h3] at h
            cases h
            simp [fallbackStatus]
          · rw [if_neg h3] at h
            cases h
            simp [fallbackStatus]
        · rw [if_neg h2] at h
          exact ih cm st h

/-! ## Claim theorems: C10 -/

/-- C10: for every non-empty, well-formed, ordered period list and every
weekday time, `getCurrentPeriodStatus` resolves through the specified
cases and never returns the final catch-all generic break. -/
theorem c10_fallback_unreachable (periods : List PeriodTime) (now : SimTime)
    (hne : periods ≠ []) (hwf : wellFormedPeriods periods = true)
    (hd0 : now.dayOfWeek ≠ 0) (hd6 : now.dayOfWeek ≠ 6) :
    getCurrentPeriodStatus periods now ≠ fallbackStatus := by
  rcases periods with _ | ⟨p0, rest⟩
  · exact absurd rfl hne
  unfold getCurrentPeriodStatus
  simp only []
  rw [if_neg (by simp [hd0, hd6] : ¬(now.dayOfWeek = 0 ∨ now.dayOfWeek = 6))]
  by_cases h1 : jsLtB (some ((now.hours : Int) * 60 + now.minutes))
      (jsSub (timeStrMinutes p0.start) (some 10)) = true
  · rw [if_pos h1]; simp [fallbackStatus]
  · rw [if_neg h1]
    by_cases h2 : jsLtB (some ((now.hours : Int) * 60 + now.minutes))
        (timeStrMinutes p0.start) = true
    · rw [if_pos h2]; simp [fallbackStatus]
    · rw [if_neg h2]
      by_cases h3 : jsGeB (some ((now.hours : Int) * 60 + now.minutes))
          (timeStrMinutes ((p0 :: rest).getLast (by simp)).endT) = true
      · rw [if_pos h3]; simp [fallbackStatus]
      · rw [if_neg h3]
        obtain ⟨a, b, ha, hb, hab⟩ :=
          periodWF_some p0 (wellFormedPeriods_head _ _ hwf)
        have hge : jsGeB (some ((now.hours : Int) * 60 + now.minutes))
            (timeStrMinutes p0.start) = true := by
          rw [ha] at h2 ⊢
          simp only [jsLtB, decide_eq_true_eq] at h2
          simp only [jsGeB, jsLeB, decide_eq_true_eq]
          omega
        obtain ⟨al, bl, hal, hbl, habl⟩ := periodWF_some ((p0 :: rest).getLast (by simp))
          (wellFormedPeriods_all _ hwf _ (List.getLast_mem (by simp)))
        have hlt : jsLtB (some ((now.hours : Int) * 60 + now.minutes))
            (timeStrMinutes ((p0 :: rest).getLast (by simp)).endT) = true := by
          rw [hbl] at h3 ⊢
          simp only [jsGeB, jsLeB, decide_eq_true_eq] at h3
          simp only [jsLtB, decide_eq_true_eq]
          omega
        have hsome := scanPeriods_isSome rest p0 ((now.hours : Int) * 60 + now.minutes)
          hwf hge hlt
        rcases hscan : scanPeriods (some ((now.hours : Int) * 60 + now.minutes))
            (p0 :: rest) with _ | st
        · rw [hscan] at hsome; cases hsome
        · exact scanPeriods_ne_fallback _ _ _ hscan

/-- Witness for C10 at a concrete two-period weekday timetable. -/
theorem c10_fallback_unreachable_witness :
    getCurrentPeriodStatus [⟨1, "09:00", "09:40"⟩, ⟨2, "09:50", "10:30"⟩] ⟨3, 9, 45⟩ ≠
      fallbackStatus :=
  c10_fallback_unreachable [⟨1, "09:00", "09:40"⟩, ⟨2, "09:50", "10:30"⟩] ⟨3, 9, 45⟩
    (by decide) (by decide) (by decide) (by decide)

end WallE

